import Mathlib

/-!
Shallow embedding of the `string-similarity` Python package.

Strings are modelled as `List Char`; Python ints as `Nat`/`Int`; Python
floats (ratios of small integers here) as `ℚ`; a raised `ValueError` as
`Except.error`.  Each definition mirrors one function of the source,
keeping its name.
-/

namespace StringSim

/-- `s[i]` for an index known to be in range; out-of-range (never reached
from the top-level entry points) yields a fixed default character. -/
def charAt (s : List Char) (i : Nat) : Char := s.getD i 'A'

/-! ## CharacterBasedStringSimilarity.hamming_distance -/

/-- `hamming_distance(str1, str2)`: raises `ValueError` on unequal lengths,
otherwise counts differing positions over `zip(str1, str2)`. -/
def hamming_distance (str1 str2 : List Char) : Except String Nat :=
  if str1.length ≠ str2.length then
    Except.error "Hamming distance is defined only for strings of equal length."
  else
    Except.ok ((str1.zip str2).foldl
      (fun distance p => if p.1 ≠ p.2 then distance + 1 else distance) 0)

/-! ## CharacterBasedStringSimilarity.levenshtein_distance -/

/-- The DP matrix of `levenshtein_distance`: `levDP str1 str2 i j` is
`dp[i][j]` of the source (row `0` is `j`, column `0` is `i`, interior is
the three-way min of deletion, insertion, substitution). -/
def levDP (str1 str2 : List Char) : Nat → Nat → Nat
  | 0, j => j
  | i + 1, 0 => i + 1
  | i + 1, j + 1 =>
      min (levDP str1 str2 i (j + 1) + 1)
        (min (levDP str1 str2 (i + 1) j + 1)
          (levDP str1 str2 i j + if charAt str1 i = charAt str2 j then 0 else 1))

/-- `levenshtein_distance(str1, str2)` returns `dp[m][n]`. -/
def levenshtein_distance (str1 str2 : List Char) : Nat :=
  levDP str1 str2 str1.length str2.length

/-! ## CharacterBasedStringSimilarity.damerau_levenshtein_distance -/

/-- The DP matrix of `damerau_levenshtein_distance`: the Levenshtein
recurrence, then a transposition relaxation when `i > 1`, `j > 1`,
`str1[i-1] == str2[j-2]` and `str1[i-2] == str2[j-1]`. -/
def damerauDP (str1 str2 : List Char) : Nat → Nat → Nat
  | 0, j => j
  | i + 1, 0 => i + 1
  | i + 1, j + 1 =>
      let base :=
        min (damerauDP str1 str2 i (j + 1) + 1)
          (min (damerauDP str1 str2 (i + 1) j + 1)
            (damerauDP str1 str2 i j + if charAt str1 i = charAt str2 j then 0 else 1))
      if 1 ≤ i ∧ 1 ≤ j ∧ charAt str1 i = charAt str2 (j - 1) ∧
          charAt str1 (i - 1) = charAt str2 j then
        min base (damerauDP str1 str2 (i - 1) (j - 1) + 1)
      else
        base

/-- `damerau_levenshtein_distance(str1, str2)` returns `dp[m][n]`. -/
def damerau_levenshtein_distance (str1 str2 : List Char) : Nat :=
  damerauDP str1 str2 str1.length str2.length

/-! ## CharacterBasedStringSimilarity.jaro_distance -/

/-- `match_distance = max(len_str1, len_str2) // 2 - 1` (an `Int`: it is
`-1` when both strings have length at most 1). -/
def matchDistance (str1 str2 : List Char) : Int :=
  ((max str1.length str2.length / 2 : Nat) : Int) - 1

/-- State of the matching loop of `jaro_distance`: the two boolean match
arrays and the running `match_count`. -/
structure MatchState where
  matches1 : List Bool
  matches2 : List Bool
  match_count : Nat
  deriving Repr, DecidableEq

/-- The window `range(start, end)` scanned for position `i`:
`start = max(0, i - match_distance)`, `end = min(i + match_distance + 1,
len_str2)`; empty when `end ≤ start`. -/
def window (d : Int) (i len2 : Nat) : List Nat :=
  let start : Int := max 0 ((i : Int) - d)
  let stop : Int := min ((i : Int) + d + 1) (len2 : Int)
  List.range' start.toNat (stop - start).toNat

/-- One iteration of the outer matching loop of `jaro_distance`: scan the
window of position `i` for the first `j` with `str2[j]` unmatched and
`str1[i] == str2[j]`; on success mark both and bump the count (`break`). -/
def matchStep (str1 str2 : List Char) (d : Int) (st : MatchState) (i : Nat) :
    MatchState :=
  match (window d i str2.length).find?
      (fun j => !(st.matches2.getD j false) && (charAt str1 i == charAt str2 j)) with
  | some j =>
      { matches1 := st.matches1.set i true
        matches2 := st.matches2.set j true
        match_count := st.match_count + 1 }
  | none => st

/-- The whole matching phase of `jaro_distance`. -/
def matchLoop (str1 str2 : List Char) : MatchState :=
  (List.range str1.length).foldl (matchStep str1 str2 (matchDistance str1 str2))
    { matches1 := List.replicate str1.length false
      matches2 := List.replicate str2.length false
      match_count := 0 }

/-- The `while not matches_str2[k]: k += 1` scan: first index `≥ k` whose
flag is set (`= length` if none, never reached on the real states). -/
def nextTrue (m2 : List Bool) (k : Nat) : Nat :=
  k + (m2.drop k).findIdx (fun x => x)

/-- One iteration of the transposition-counting loop, acting on the pair
`(k, transpositions)`. -/
def transStep (str1 str2 : List Char) (m1 m2 : List Bool) (kt : Nat × Nat)
    (i : Nat) : Nat × Nat :=
  if m1.getD i false then
    let k := nextTrue m2 kt.1
    (k + 1, kt.2 + if charAt str1 i ≠ charAt str2 k then 1 else 0)
  else kt

/-- The raw (un-halved) transposition count of `jaro_distance`. -/
def transCount (str1 str2 : List Char) (m1 m2 : List Bool) : Nat :=
  ((List.range str1.length).foldl (transStep str1 str2 m1 m2) (0, 0)).2

/-- `jaro_distance(str1, str2)`: `0.0` on zero `match_count`, otherwise the
three-way average with the halved transposition count. -/
def jaro_distance (str1 str2 : List Char) : ℚ :=
  let st := matchLoop str1 str2
  if st.match_count = 0 then 0
  else
    let transpositions :=
      transCount str1 str2 st.matches1 st.matches2 / 2
    ((st.match_count : ℚ) / str1.length + (st.match_count : ℚ) / str2.length +
        ((st.match_count : ℚ) - (transpositions : ℚ)) / st.match_count) / 3

/-! ## CharacterBasedStringSimilarity.jaro_winkler_distance -/

/-- The `common_prefix_len` loop of `jaro_winkler_distance`: walk
`zip(str1, str2)` counting equal characters, stopping at the first
mismatch. -/
def common_prefix_len : List Char → List Char → Nat
  | c1 :: t1, c2 :: t2 => if c1 = c2 then common_prefix_len t1 t2 + 1 else 0
  | _, _ => 0

/-- `jaro_winkler_distance(str1, str2, p=0.1)`. -/
def jaro_winkler_distance (str1 str2 : List Char) (p : ℚ := 1 / 10) : ℚ :=
  let jaro_dist := jaro_distance str1 str2
  jaro_dist + p * (common_prefix_len str1 str2 : ℚ) * (1 - jaro_dist)

/-! ## SequenceBasedStringSimilarity.lcs -/

/-- The DP matrix of `lcs` (longest common subsequence length): zero
borders, `+1` on equal characters, `max` otherwise. -/
def lcsDP (X Y : List Char) : Nat → Nat → Nat
  | 0, _ => 0
  | _ + 1, 0 => 0
  | i + 1, j + 1 =>
      if charAt X i = charAt Y j then lcsDP X Y i j + 1
      else max (lcsDP X Y i (j + 1)) (lcsDP X Y (i + 1) j)

/-- `lcs(X, Y)` returns `dp[m][n]`. -/
def lcs (X Y : List Char) : Nat := lcsDP X Y X.length Y.length

/-! ## SequenceBasedStringSimilarity.longest_common_substring -/

/-- The DP matrix of `longest_common_substring`: `dp[i-1][j-1] + 1` on a
character match, `0` otherwise (and on the borders). -/
def lcsubDP (X Y : List Char) : Nat → Nat → Nat
  | 0, _ => 0
  | _ + 1, 0 => 0
  | i + 1, j + 1 => if charAt X i = charAt Y j then lcsubDP X Y i j + 1 else 0

/-- The row-major cell order `(i, j)`, `1 ≤ i ≤ m`, `1 ≤ j ≤ n`, of the two
nested `for` loops. -/
def cells (m n : Nat) : List (Nat × Nat) :=
  (List.range' 1 m).flatMap (fun i => (List.range' 1 n).map (fun j => (i, j)))

/-- One cell of the tracking scan of `longest_common_substring`: inside the
equal-characters branch, update `(max_len, max_i, max_j)` only on a strictly
greater `dp[i][j]`. -/
def lcsubStep (X Y : List Char) (st : Nat × Nat × Nat) (ij : Nat × Nat) :
    Nat × Nat × Nat :=
  if charAt X (ij.1 - 1) = charAt Y (ij.2 - 1) then
    if lcsubDP X Y ij.1 ij.2 > st.1 then (lcsubDP X Y ij.1 ij.2, ij.1, ij.2)
    else st
  else st

/-- The backward reconstruction walk: `max_len` steps of
`lcs = X[max_i - 1] + lcs; max_i -= 1`. -/
def lcsubBuild (X : List Char) : Nat → Nat → List Char
  | 0, _ => []
  | l + 1, mi => lcsubBuild X l (mi - 1) ++ [charAt X (mi - 1)]

/-- `longest_common_substring(X, Y)`. -/
def longest_common_substring (X Y : List Char) : List Char :=
  let st := (cells X.length Y.length).foldl (lcsubStep X Y) (0, 0, 0)
  lcsubBuild X st.1 st.2.1

/-! ## PhoneticSensitiveSimilarity.smith_waterman -/

/-- The Smith-Waterman score matrix: zero borders and
`max(0, match, delete, insert)` in the interior. -/
def score_matrix (seq1 seq2 : List Char) (match_score mismatch_score gap_penalty : Int) :
    Nat → Nat → Int
  | 0, _ => 0
  | _ + 1, 0 => 0
  | i + 1, j + 1 =>
      let mtch := score_matrix seq1 seq2 match_score mismatch_score gap_penalty i j +
        (if charAt seq1 i = charAt seq2 j then match_score else mismatch_score)
      let del := score_matrix seq1 seq2 match_score mismatch_score gap_penalty i (j + 1) +
        gap_penalty
      let ins := score_matrix seq1 seq2 match_score mismatch_score gap_penalty (i + 1) j +
        gap_penalty
      max 0 (max mtch (max del ins))

/-- One cell of the best-score tracking scan of `smith_waterman`: update
`(max_score, optimal_align1, optimal_align2)` only on a strictly greater
score, recording the prefixes `seq1[:i]` and `seq2[:j]`. -/
def swStep (seq1 seq2 : List Char) (match_score mismatch_score gap_penalty : Int)
    (st : Int × List Char × List Char) (ij : Nat × Nat) :
    Int × List Char × List Char :=
  if score_matrix seq1 seq2 match_score mismatch_score gap_penalty ij.1 ij.2 > st.1 then
    (score_matrix seq1 seq2 match_score mismatch_score gap_penalty ij.1 ij.2,
      seq1.take ij.1, seq2.take ij.2)
  else st

/-- `smith_waterman(seq1, seq2, match_score=3, mismatch_score=-3,
gap_penalty=-2)`: the maximal score and the recorded prefixes. -/
def smith_waterman (seq1 seq2 : List Char) (match_score : Int := 3)
    (mismatch_score : Int := -3) (gap_penalty : Int := -2) :
    Int × List Char × List Char :=
  (cells seq1.length seq2.length).foldl
    (swStep seq1 seq2 match_score mismatch_score gap_penalty) (0, [], [])

/-! ## Head-recursive Levenshtein distance

`levRec` is the textbook cursor-free recursion on the two lists.  It is
proved equal (on reversed prefixes) to the source's DP matrix `levDP` and
carries the symmetry and triangle-inequality arguments. -/

/-- Head-recursive Levenshtein distance. -/
def levRec : List Char → List Char → Nat
  | [], ys => ys.length
  | _ :: xs, [] => xs.length + 1
  | x :: xs, y :: ys =>
      min (levRec xs (y :: ys) + 1)
        (min (levRec (x :: xs) ys + 1) (levRec xs ys + if x = y then 0 else 1))

/-! ## Alignments and the triangle inequality

An alignment is a list of columns `(Option Char × Option Char)`; the
column `(none, none)` is excluded.  Its cost is the number of columns
that are not an agreeing pair.  The Levenshtein distance is at most the
cost of any alignment and is attained by some alignment, and alignments
compose; together those give the triangle inequality. -/

/-- The string read off the left row of an alignment. -/
def alignLeft (al : List (Option Char × Option Char)) : List Char :=
  al.filterMap Prod.fst

/-- The string read off the right row of an alignment. -/
def alignRight (al : List (Option Char × Option Char)) : List Char :=
  al.filterMap Prod.snd

/-- A column costs `0` exactly when both rows carry the same character. -/
def stepCost : Option Char × Option Char → Nat
  | (some x, some y) => if x = y then 0 else 1
  | _ => 1

/-- The cost of an alignment. -/
def alignCost (al : List (Option Char × Option Char)) : Nat :=
  (al.map stepCost).sum

/-- Composition of two alignments along their shared middle string. -/
def compAlign : List (Option Char × Option Char) → List (Option Char × Option Char) →
    List (Option Char × Option Char)
  | [], [] => []
  | [], (none, z) :: t2 => (none, z) :: compAlign [] t2
  | [], (some _, _) :: _ => []
  | (x, none) :: t1, al2 => (x, none) :: compAlign t1 al2
  | (_, some _) :: _, [] => []
  | (x, some m) :: t1, (none, z) :: t2 => (none, z) :: compAlign ((x, some m) :: t1) t2
  | (x, some _) :: t1, (some _, z) :: t2 =>
      if x = none ∧ z = none then compAlign t1 t2
      else (x, z) :: compAlign t1 t2
  termination_by al1 al2 => al1.length + al2.length

/-! ## The per-character two-pointer matcher

The greedy matching loop of `jaro_distance` decomposes by character: for a
fixed character, the positions in `str1` and `str2` holding it are matched
by the two-pointer sweep `gRun` below.  `gRun d ps qs` returns the list of
matched pairs and the leftover (neither matched nor permanently skipped)
positions of `qs`. -/

/-- Two-pointer greedy matching of two ascending position lists within
distance `d`: a `q` below the window of the current `p` can never match
again and is dropped; a `q` inside the window is matched; otherwise `p`
stays unmatched. -/
def gRun (d : Int) : List Nat → List Nat → List (Nat × Nat) × List Nat
  | [], qs => ([], qs)
  | _ :: _, [] => ([], [])
  | p :: ps, q :: qs =>
      if (q : Int) < (p : Int) - d then gRun d (p :: ps) qs
      else if (q : Int) ≤ (p : Int) + d then
        ((p, q) :: (gRun d ps qs).1, (gRun d ps qs).2)
      else gRun d ps (q :: qs)
  termination_by ps qs => ps.length + qs.length

/-- The ascending list of positions of character `c` in `s`. -/
def posOf (c : Char) (s : List Char) : List Nat :=
  (List.range s.length).filter (fun j => charAt s j = c)

/-- The ascending list of positions of `c` among the first `i` positions
of `s`. -/
def posUpTo (i : Nat) (c : Char) (s : List Char) : List Nat :=
  (List.range i).filter (fun p => charAt s p = c)

/-- The invariant of the matching loop of `jaro_distance` after the outer
loop has processed positions `0 … i-1` of `str1`: the match flags agree,
character by character, with the two-pointer runs of `gRun`, and the
still-unmatched positions of `str2` are exactly the leftovers plus the
permanently skipped below-window ones. -/
def MatchInv (a b : List Char) (d : Int) (i : Nat) (st : MatchState) : Prop :=
  st.matches1.length = a.length ∧
  st.matches2.length = b.length ∧
  (∀ p, p < a.length →
    (st.matches1.getD p false = true ↔
      p ∈ (gRun d (posUpTo i (charAt a p) a) (posOf (charAt a p) b)).1.map Prod.fst)) ∧
  (∀ q, q < b.length →
    (st.matches2.getD q false = true ↔
      q ∈ (gRun d (posUpTo i (charAt b q) a) (posOf (charAt b q) b)).1.map Prod.snd)) ∧
  (∀ c q, q ∈ posOf c b → st.matches2.getD q false = false →
    q ∈ (gRun d (posUpTo i c a) (posOf c b)).2 ∨ (q : Int) < (i : Int) - d) ∧
  (∀ c q, q ∈ (gRun d (posUpTo i c a) (posOf c b)).2 →
    st.matches2.getD q false = false)

/-- Positionwise mismatch count of two equally long character lists (the
zipped Hamming count). -/
def countMismatch : List Char → List Char → Nat
  | x :: xs, y :: ys => (if x ≠ y then 1 else 0) + countMismatch xs ys
  | _, _ => 0

/-- The ascending list of raised positions of a flag array. -/
def trueIdx (m : List Bool) : List Nat :=
  (List.range m.length).filter (fun j => m.getD j false)

end StringSim

namespace StringSim

set_option maxRecDepth 8000

/-- Folding the difference counter from `n` is `n` plus folding it from
`0`. -/
lemma hamming_fold_acc (l : List (Char × Char)) (n : Nat) :
    l.foldl (fun distance p => if p.1 ≠ p.2 then distance + 1 else distance) n =
      n + l.foldl (fun distance p => if p.1 ≠ p.2 then distance + 1 else distance) 0 := by
  induction l generalizing n with
  | nil => simp
  | cons p t ih =>
      simp only [List.foldl_cons]
      rw [ih, ih (if p.1 ≠ p.2 then 0 + 1 else 0)]
      split <;> omega

/-- The `zip`-fold of `hamming_distance` counts the indices at which the
two strings differ. -/
lemma hamming_fold (str1 str2 : List Char) (h : str1.length = str2.length) :
    (str1.zip str2).foldl
        (fun distance p => if p.1 ≠ p.2 then distance + 1 else distance) 0 =
      (List.range str1.length).countP (fun i => charAt str1 i ≠ charAt str2 i) := by
  induction str1 generalizing str2 with
  | nil => simp
  | cons x xs ih =>
      cases str2 with
      | nil => simp at h
      | cons y ys =>
          have hlen : xs.length = ys.length := by simpa using h
          simp only [List.zip_cons_cons, List.foldl_cons, List.length_cons,
            List.range_succ_eq_map, List.countP_cons, List.countP_map]
          rw [hamming_fold_acc]
          have hcount :
              (List.range xs.length).countP
                  ((fun i => decide (charAt (x :: xs) i ≠ charAt (y :: ys) i)) ∘ Nat.succ) =
                (List.range xs.length).countP
                  (fun i => charAt xs i ≠ charAt ys i) := by
            refine List.countP_congr fun i _ => ?_
            simp [charAt]
          rw [hcount, ← ih ys hlen]
      -- the head contributes through the initial accumulator, the tail
      -- through the recursive fold
          by_cases hxy : x = y <;> simp [hxy, charAt, Nat.add_comm]

/-! ## Claim C1: the Levenshtein DP matrix -/

/-- **C1.** `levenshtein_distance` builds the `(m+1)×(n+1)` DP matrix with
base cases `dp[i][0] = i` and `dp[0][j] = j` and recurrence
`dp[i][j] = min(dp[i-1][j]+1, dp[i][j-1]+1, dp[i-1][j-1] + (0 if
a[i-1]==b[j-1] else 1))`, and returns `dp[m][n]`; it accepts empty
sequences, returning the other input's length, and
`levenshtein("kitten","sitting") == 3`. -/
theorem claim_C1 :
    (∀ (str1 str2 : List Char),
      levenshtein_distance str1 str2 = levDP str1 str2 str1.length str2.length ∧
      (∀ i, levDP str1 str2 i 0 = i) ∧
      (∀ j, levDP str1 str2 0 j = j) ∧
      (∀ i j, levDP str1 str2 (i + 1) (j + 1) =
        min (levDP str1 str2 i (j + 1) + 1)
          (min (levDP str1 str2 (i + 1) j + 1)
            (levDP str1 str2 i j + if charAt str1 i = charAt str2 j then 0 else 1))) ∧
      levenshtein_distance [] str2 = str2.length ∧
      levenshtein_distance str1 [] = str1.length) ∧
    levenshtein_distance "kitten".toList "sitting".toList = 3 := by
  refine ⟨fun str1 str2 => ⟨rfl, ?_, fun j => by rw [levDP], fun i j => by rw [levDP],
      ?_, ?_⟩, ?_⟩
  · intro i; cases i <;> rw [levDP]
  · show levDP [] str2 0 str2.length = str2.length
    rw [levDP]
  · show levDP str1 [] str1.length 0 = str1.length
    cases h : str1.length <;> rw [levDP]
  · simp [levenshtein_distance, levDP, charAt]

/-! ## Claim C4: Damerau-Levenshtein -/

/-- **C4.** `damerau_levenshtein_distance` uses the same recurrence as
`levenshtein_distance` plus one relaxation: when `i > 1`, `j > 1`,
`a[i-1] == b[j-2]` and `a[i-2] == b[j-1]`, it additionally takes
`dp[i][j] = min(dp[i][j], dp[i-2][j-2] + 1)` (the relaxation can only
lower values, so the matrix is pointwise at most the Levenshtein one);
consequently `damerau_levenshtein("ab","ba") == 1` while
`levenshtein("ab","ba") == 2`. -/
theorem claim_C4 :
    (∀ (str1 str2 : List Char) (i j : Nat),
      damerauDP str1 str2 (i + 1) (j + 1) =
        if 1 ≤ i ∧ 1 ≤ j ∧ charAt str1 i = charAt str2 (j - 1) ∧
            charAt str1 (i - 1) = charAt str2 j then
          min
            (min (damerauDP str1 str2 i (j + 1) + 1)
              (min (damerauDP str1 str2 (i + 1) j + 1)
                (damerauDP str1 str2 i j +
                  if charAt str1 i = charAt str2 j then 0 else 1)))
            (damerauDP str1 str2 (i - 1) (j - 1) + 1)
        else
          min (damerauDP str1 str2 i (j + 1) + 1)
            (min (damerauDP str1 str2 (i + 1) j + 1)
              (damerauDP str1 str2 i j +
                if charAt str1 i = charAt str2 j then 0 else 1))) ∧
    (∀ (str1 str2 : List Char) (i j : Nat),
      damerauDP str1 str2 i j ≤ levDP str1 str2 i j) ∧
    damerau_levenshtein_distance "ab".toList "ba".toList = 1 ∧
    levenshtein_distance "ab".toList "ba".toList = 2 := by
  refine ⟨fun str1 str2 i j => by simp only [damerauDP], ?_, ?_, ?_⟩
  · intro str1 str2 i j
    induction i, j using levDP.induct str1 str2 with
    | case1 j => simp only [damerauDP, levDP]; exact le_rfl
    | case2 i => simp only [damerauDP, levDP]; exact le_rfl
    | case3 i j ih1 ih2 ih3 =>
        simp only [damerauDP, levDP]
        have hbase :
            min (damerauDP str1 str2 i (j + 1) + 1)
              (min (damerauDP str1 str2 (i + 1) j + 1)
                (damerauDP str1 str2 i j +
                  if charAt str1 i = charAt str2 j then 0 else 1)) ≤
            min (levDP str1 str2 i (j + 1) + 1)
              (min (levDP str1 str2 (i + 1) j + 1)
                (levDP str1 str2 i j +
                  if charAt str1 i = charAt str2 j then 0 else 1)) := by
          split <;> omega
        split
    -- with the transposition relaxation the value can only get smaller
        · exact le_trans (min_le_left _ _) hbase
        · exact hbase
  · simp [damerau_levenshtein_distance, damerauDP, charAt]
  · simp [levenshtein_distance, levDP, charAt]

/-! ## Claim C5: Hamming distance and its length guard -/

/-- **C5.** `hamming_distance` fails with the length-mismatch `ValueError`
exactly when the two inputs differ in length, and for equal-length inputs
returns the count of positions where the characters differ; in particular
`hamming("abc","abd") == 1` and `hamming("ab","abc")` raises the error. -/
theorem claim_C5 :
    (∀ (str1 str2 : List Char),
      (hamming_distance str1 str2 =
          Except.error "Hamming distance is defined only for strings of equal length." ↔
        str1.length ≠ str2.length) ∧
      (str1.length = str2.length →
        hamming_distance str1 str2 =
          Except.ok ((List.range str1.length).countP
            (fun i => charAt str1 i ≠ charAt str2 i)))) ∧
    hamming_distance "abc".toList "abd".toList = Except.ok 1 ∧
    hamming_distance "ab".toList "abc".toList =
      Except.error "Hamming distance is defined only for strings of equal length." := by
  refine ⟨fun str1 str2 => ⟨?_, ?_⟩, by rfl, by rfl⟩
  · unfold hamming_distance
    split <;> simp_all
  · intro h
    unfold hamming_distance
    rw [if_neg (by omega)]
    exact congrArg Except.ok (hamming_fold str1 str2 h)

/-- Closed instance of the equal-length branch of `claim_C5`. -/
theorem claim_C5_witness :
    hamming_distance "xy".toList "xz".toList =
      Except.ok ((List.range "xy".toList.length).countP
        (fun i => charAt "xy".toList i ≠ charAt "xz".toList i)) :=
  (claim_C5.1 "xy".toList "xz".toList).2 (by rfl)

/-! ## Claim C7: longest common substring -/

/-- A fold leaves its argument unchanged when every listed element fixes
every state. -/
lemma foldl_fixed {α β : Type} (f : α → β → α) (l : List β) (st : α)
    (h : ∀ st' b, b ∈ l → f st' b = st') : l.foldl f st = st := by
  induction l generalizing st with
  | nil => rfl
  | cons b t ih =>
      rw [List.foldl_cons, h st b (List.mem_cons_self b t)]
      exact ih st fun st' b' hb' => h st' b' (List.mem_cons_of_mem b hb')

lemma charAt_cons_succ (c : Char) (t : List Char) (n : Nat) :
    charAt (c :: t) (n + 1) = charAt t n := rfl

/-- An in-range `charAt` is a member of the list. -/
lemma charAt_mem (s : List Char) (i : Nat) (h : i < s.length) : charAt s i ∈ s := by
  induction s generalizing i with
  | nil => simp at h
  | cons c t ih =>
      cases i with
      | zero => exact List.mem_cons_self c t
      | succ n =>
          rw [charAt_cons_succ]
          exact List.mem_cons_of_mem c (ih n (by simpa using h))

/-- Bounds carried by membership in the row-major cell list. -/
lemma mem_cells {m n : Nat} {ij : Nat × Nat} (h : ij ∈ cells m n) :
    1 ≤ ij.1 ∧ ij.1 ≤ m ∧ 1 ≤ ij.2 ∧ ij.2 ≤ n := by
  simp only [cells, List.mem_flatMap, List.mem_map, List.mem_range'_1] at h
  obtain ⟨i, hi, j, hj, rfl⟩ := h
  omega

/-- **C7.** `longest_common_substring` uses the recurrence
`dp[i][j] = dp[i-1][j-1] + 1 if a[i-1]==b[j-1] else 0`, tracks the maximum
value and its end coordinates (ties keep the first occurrence of the
forward scan, which the strict `>` in `lcsubStep` realises), reconstructs
the substring by walking backward `max_len` steps, and returns the empty
string when the inputs share no common character; in particular
`longest_common_substring("abcdef","zabcf") == "abc"`. -/
theorem claim_C7 :
    (∀ (X Y : List Char) (i j : Nat),
      lcsubDP X Y (i + 1) (j + 1) =
        if charAt X i = charAt Y j then lcsubDP X Y i j + 1 else 0) ∧
    (∀ (X Y : List Char), (∀ c ∈ X, c ∉ Y) → longest_common_substring X Y = []) ∧
    longest_common_substring "abcdef".toList "zabcf".toList = "abc".toList := by
  refine ⟨fun X Y i j => by rw [lcsubDP], ?_, ?_⟩
  · intro X Y hdisj
    have hfix : (cells X.length Y.length).foldl (lcsubStep X Y) (0, 0, 0) =
        ((0, 0, 0) : Nat × Nat × Nat) := by
      refine foldl_fixed _ _ _ fun st ij hij => ?_
      obtain ⟨hi1, him, hj1, hjn⟩ := mem_cells hij
      unfold lcsubStep
      rw [if_neg]
      intro heq
      exact hdisj (charAt X (ij.1 - 1)) (charAt_mem X (ij.1 - 1) (by omega))
        (heq ▸ charAt_mem Y (ij.2 - 1) (by omega))
    show lcsubBuild X
        ((cells X.length Y.length).foldl (lcsubStep X Y) (0, 0, 0)).1
        ((cells X.length Y.length).foldl (lcsubStep X Y) (0, 0, 0)).2.1 = []
    rw [hfix]
    rfl
  · simp [longest_common_substring, cells, lcsubStep, lcsubDP, lcsubBuild,
      charAt, List.range']

/-- Closed instance of the no-common-character branch of `claim_C7`. -/
theorem claim_C7_witness : longest_common_substring "ab".toList "cd".toList = [] :=
  claim_C7.2.1 "ab".toList "cd".toList (by decide)

/-! ## Claims C6 and C10: `jaro_distance` degenerate behaviour -/

/-- A negative match distance clamps every window to the empty range. -/
lemma window_eq_nil {d : Int} (i len2 : Nat) (hd : d < 0) : window d i len2 = [] := by
  show List.range' (max 0 ((i : Int) - d)).toNat
      ((min ((i : Int) + d + 1) (len2 : Int) - max 0 ((i : Int) - d)).toNat) = []
  rw [show (min ((i : Int) + d + 1) (len2 : Int) -
      max 0 ((i : Int) - d)).toNat = 0 from by omega]
  rfl

/-- With a negative match distance, one matching step changes nothing. -/
lemma matchStep_of_neg (str1 str2 : List Char) (d : Int) (st : MatchState) (i : Nat)
    (hd : d < 0) : matchStep str1 str2 d st i = st := by
  unfold matchStep
  rw [window_eq_nil i str2.length hd]
  rfl

/-- With a negative match distance, the whole matching loop keeps the
all-false initial state. -/
lemma matchLoop_of_neg (str1 str2 : List Char)
    (hd : matchDistance str1 str2 < 0) :
    matchLoop str1 str2 =
      ⟨List.replicate str1.length false, List.replicate str2.length false, 0⟩ :=
  foldl_fixed _ _ _ fun st i _ => matchStep_of_neg str1 str2 _ st i hd

/-- The zero-match branch of `jaro_distance`. -/
lemma jaro_of_no_match (str1 str2 : List Char)
    (h : (matchLoop str1 str2).match_count = 0) : jaro_distance str1 str2 = 0 := by
  simp [jaro_distance, h]

/-- **C6.** `jaro_distance` never raises: when `match_count == 0` it
returns `0.0` (a defined result), and when `match_distance` is negative
the clamped search window is empty, so the matching step leaves the state
unchanged (zero matches for that position) rather than failing. -/
theorem claim_C6 :
    (∀ (str1 str2 : List Char),
      (matchLoop str1 str2).match_count = 0 → jaro_distance str1 str2 = 0) ∧
    (∀ (str1 str2 : List Char) (st : MatchState) (i : Nat),
      matchDistance str1 str2 < 0 →
      matchStep str1 str2 (matchDistance str1 str2) st i = st) :=
  ⟨jaro_of_no_match, fun str1 str2 st i hd => matchStep_of_neg str1 str2 _ st i hd⟩

/-- Closed instance of both branches of `claim_C6`. -/
theorem claim_C6_witness :
    jaro_distance "ab".toList "cd".toList = 0 ∧
    matchStep "a".toList "a".toList (matchDistance "a".toList "a".toList)
        ⟨[false], [false], 0⟩ 0 = ⟨[false], [false], 0⟩ :=
  ⟨claim_C6.1 "ab".toList "cd".toList (by decide),
    claim_C6.2 "a".toList "a".toList ⟨[false], [false], 0⟩ 0 (by decide)⟩

/-- **C10.** For every single-character string, `jaro_distance` of the
string with itself is `0`, not `1`: `match_distance = -1` makes every
clamped window empty, so the zero-match branch is taken even though the
strings are equal. -/
theorem claim_C10 :
    (∀ c : Char, jaro_distance [c] [c] = 0 ∧ matchDistance [c] [c] = -1 ∧
      (matchLoop [c] [c]).match_count = 0) ∧
    jaro_distance "a".toList "a".toList = 0 := by
  have hmd : ∀ c : Char, matchDistance [c] [c] = -1 := fun c => by
    norm_num [matchDistance]
  have hcount : ∀ c : Char, (matchLoop [c] [c]).match_count = 0 := by
    intro c
    rw [matchLoop_of_neg [c] [c] (by rw [hmd c]; decide)]
  refine ⟨fun c => ⟨jaro_of_no_match [c] [c] (hcount c), hmd c, hcount c⟩, ?_⟩
  exact jaro_of_no_match "a".toList "a".toList (hcount 'a')

/-! ## Claim C3: Jaro-Winkler formula, uncapped prefix, results above 1 -/

/-- The prefix counter is bounded by both lengths. -/
lemma common_prefix_len_le (str1 str2 : List Char) :
    common_prefix_len str1 str2 ≤ min str1.length str2.length := by
  induction str1 generalizing str2 with
  | nil => simp [common_prefix_len]
  | cons c1 t1 ih =>
      cases str2 with
      | nil => simp [common_prefix_len]
      | cons c2 t2 =>
          rw [common_prefix_len]
          split
          · have := ih t2
            simp only [List.length_cons]
            omega
          · omega

/-- The prefix counter really is the length of a shared literal prefix. -/
lemma take_common_prefix_len (str1 str2 : List Char) :
    str1.take (common_prefix_len str1 str2) =
      str2.take (common_prefix_len str1 str2) := by
  induction str1 generalizing str2 with
  | nil => cases str2 <;> simp [common_prefix_len]
  | cons c1 t1 ih =>
      cases str2 with
      | nil => simp [common_prefix_len]
      | cons c2 t2 =>
          rw [common_prefix_len]
          split
          · rename_i heq
            simp only [List.take_succ_cons, heq, List.cons.injEq, true_and]
            exact ih t2
          · simp

/-- ...and it is the longest one: any shared literal prefix is at most as
long. -/
lemma le_common_prefix_len (str1 str2 : List Char) (k : Nat)
    (hk : k ≤ min str1.length str2.length)
    (h : str1.take k = str2.take k) : k ≤ common_prefix_len str1 str2 := by
  induction str1 generalizing str2 k with
  | nil => simp at hk; omega
  | cons c1 t1 ih =>
      cases k with
      | zero => omega
      | succ k =>
          cases str2 with
          | nil => simp at hk
          | cons c2 t2 =>
              simp only [List.take_succ_cons, List.cons.injEq] at h
              rw [common_prefix_len, if_pos h.1]
              have := ih t2 k (by simp at hk ⊢; omega) h.2
              omega

/-- **C3.** For every pair of strings and every prefix weight `p`,
`jaro_winkler(a, b, p) = jaro(a, b) + p * common_prefix_len * (1 -
jaro(a, b))`, where `common_prefix_len` is the full length of the longest
shared literal prefix with no cap at 4, and the result is not clamped to
`1.0`: on the exhibited input (shared prefix of length 11) it exceeds 1. -/
theorem claim_C3 :
    (∀ (str1 str2 : List Char) (p : ℚ),
      jaro_winkler_distance str1 str2 p =
        jaro_distance str1 str2 +
          p * (common_prefix_len str1 str2 : ℚ) * (1 - jaro_distance str1 str2)) ∧
    (∀ (str1 str2 : List Char),
      str1.take (common_prefix_len str1 str2) =
        str2.take (common_prefix_len str1 str2) ∧
      common_prefix_len str1 str2 ≤ min str1.length str2.length ∧
      ∀ k, k ≤ min str1.length str2.length → str1.take k = str2.take k →
        k ≤ common_prefix_len str1 str2) ∧
    common_prefix_len "aaaaaaaaaaab".toList "aaaaaaaaaaac".toList = 11 ∧
    4 < common_prefix_len "aaaaaaaaaaab".toList "aaaaaaaaaaac".toList ∧
    1 < jaro_winkler_distance "aaaaaaaaaaab".toList "aaaaaaaaaaac".toList (1 / 10) := by
  refine ⟨fun str1 str2 p => rfl,
    fun str1 str2 => ⟨take_common_prefix_len str1 str2, common_prefix_len_le str1 str2,
      le_common_prefix_len str1 str2⟩, by decide, by decide, ?_⟩
  have h : matchLoop "aaaaaaaaaaab".toList "aaaaaaaaaaac".toList =
      ⟨[true, true, true, true, true, true, true, true, true, true, true, false],
        [true, true, true, true, true, true, true, true, true, true, true, false],
        11⟩ := by decide
  have ht : transCount ['a', 'a', 'a', 'a', 'a', 'a', 'a', 'a', 'a', 'a', 'a', 'b']
      ['a', 'a', 'a', 'a', 'a', 'a', 'a', 'a', 'a', 'a', 'a', 'c']
      [true, true, true, true, true, true, true, true, true, true, true, false]
      [true, true, true, true, true, true, true, true, true, true, true, false] = 0 := by
    decide
  have hj : jaro_distance "aaaaaaaaaaab".toList "aaaaaaaaaaac".toList = 17 / 18 := by
    rw [jaro_distance, h]
    norm_num [ht]
  have hcpl : common_prefix_len "aaaaaaaaaaab".toList "aaaaaaaaaaac".toList = 11 := by
    decide
  rw [jaro_winkler_distance]
  rw [hj, hcpl]
  norm_num

/-! ## Claim C2: Smith-Waterman on identical sequences -/

/-- A fold also stays put when the listed elements fix the given state
itself. -/
lemma foldl_steady {α β : Type} (f : α → β → α) (l : List β) (st : α)
    (h : ∀ b ∈ l, f st b = st) : l.foldl f st = st := by
  induction l with
  | nil => rfl
  | cons b t ih =>
      rw [List.foldl_cons, h b (List.mem_cons_self b t)]
      exact ih fun b' hb' => h b' (List.mem_cons_of_mem b hb')

/-- Folding over a `flatMap` is the nested fold. -/
lemma foldl_flatMap {α β γ : Type} (g : β → List γ) (f : α → γ → α)
    (l : List β) (st : α) :
    (l.flatMap g).foldl f st = l.foldl (fun st b => (g b).foldl f st) st := by
  induction l generalizing st with
  | nil => rfl
  | cons b t ih => rw [List.flatMap_cons, List.foldl_append, List.foldl_cons, ih]

/-- With the default scores, every Smith-Waterman cell of a self-alignment
is at most `3 * min i j`. -/
lemma sw_bound (s : List Char) : ∀ i j : Nat,
    score_matrix s s 3 (-3) (-2) i j ≤ 3 * min (i : Int) (j : Int) := by
  have H : ∀ n i j : Nat, i + j ≤ n →
      score_matrix s s 3 (-3) (-2) i j ≤ 3 * min (i : Int) (j : Int) := by
    intro n
    induction n with
    | zero =>
        intro i j h
        obtain ⟨rfl, rfl⟩ : i = 0 ∧ j = 0 := by omega
        simp [score_matrix]
    | succ n ih =>
        intro i j h
        match i, j with
        | 0, j => simp [score_matrix]
        | i + 1, 0 => simp [score_matrix]; omega
        | i + 1, j + 1 =>
            have h1 := ih i j (by omega)
            have h2 := ih i (j + 1) (by omega)
            have h3 := ih (i + 1) j (by omega)
            simp only [score_matrix]
            by_cases hch : charAt s i = charAt s j
            · rw [if_pos hch]; push_cast at h1 h2 h3 ⊢; omega
            · rw [if_neg hch]; push_cast at h1 h2 h3 ⊢; omega
  exact fun i j => H (i + j) i j le_rfl

/-- With the default scores, the diagonal of a self-alignment is exactly
`3 * i`. -/
lemma sw_diag (s : List Char) : ∀ i : Nat,
    score_matrix s s 3 (-3) (-2) i i = 3 * (i : Int) := by
  intro i
  induction i with
  | zero => simp [score_matrix]
  | succ i ih =>
      have h2 := sw_bound s i (i + 1)
      have h3 := sw_bound s (i + 1) i
      simp only [score_matrix, eq_self_iff_true, if_true]
      push_cast at h2 h3 ⊢
      omega

/-- Scanning one full row `i` of the self-alignment matrix takes the best
state from row `i - 1` to the row-`i` one: only the diagonal cell
strictly improves the score. -/
lemma sw_row (s : List Char) (n i : Nat) (h1 : 1 ≤ i) (h2 : i ≤ n) :
    (List.range' 1 n).foldl (fun st j => swStep s s 3 (-3) (-2) st (i, j))
      (3 * (i : Int) - 3, s.take (i - 1), s.take (i - 1)) =
    (3 * (i : Int), s.take i, s.take i) := by
  have hsplit : List.range' 1 n =
      List.range' 1 (i - 1) ++ (i :: List.range' (i + 1) (n - i)) := by
    have h := List.range'_append 1 (i - 1) (n - i + 1) 1
    rw [show 1 + 1 * (i - 1) = i from by omega] at h
    rw [show n - i + 1 + (i - 1) = n from by omega] at h
    rw [← h]
    rfl
  rw [hsplit, List.foldl_append]
  have hA : (List.range' 1 (i - 1)).foldl (fun st j => swStep s s 3 (-3) (-2) st (i, j))
      (3 * (i : Int) - 3, s.take (i - 1), s.take (i - 1)) =
      (3 * (i : Int) - 3, s.take (i - 1), s.take (i - 1)) := by
    refine foldl_steady _ _ _ fun j hj => ?_
    rw [List.mem_range'_1] at hj
    unfold swStep
    rw [if_neg]
    have hb := sw_bound s i j
    have hm : min (i : Int) (j : Int) = (j : Int) := by omega
    rw [hm] at hb
    simp only [not_lt]
    omega
  rw [hA, List.foldl_cons]
  have hstep : swStep s s 3 (-3) (-2)
      (3 * (i : Int) - 3, s.take (i - 1), s.take (i - 1)) (i, i) =
      (3 * (i : Int), s.take i, s.take i) := by
    unfold swStep
    rw [if_pos (by rw [sw_diag]; simp only []; omega)]
    rw [sw_diag]
  rw [hstep]
  refine foldl_steady _ _ _ fun j hj => ?_
  rw [List.mem_range'_1] at hj
  unfold swStep
  rw [if_neg]
  have hb := sw_bound s i j
  have hm : min (i : Int) (j : Int) = (i : Int) := by omega
  rw [hm] at hb
  simp only [not_lt]
  omega

/-- Scanning rows `r+1 … r+k` takes the best state from `(3r, s[:r],
s[:r])` to `(3(r+k), s[:r+k], s[:r+k])`. -/
lemma sw_outer (s : List Char) (n : Nat) : ∀ k r : Nat, r + k ≤ n →
    (List.range' (r + 1) k).foldl
      (fun st i =>
        (List.range' 1 n).foldl (fun st j => swStep s s 3 (-3) (-2) st (i, j)) st)
      (3 * (r : Int), s.take r, s.take r) =
    (3 * ((r + k : Nat) : Int), s.take (r + k), s.take (r + k)) := by
  intro k
  induction k with
  | zero => intro r h; simp
  | succ k ih =>
      intro r h
      rw [show List.range' (r + 1) (k + 1) = (r + 1) :: List.range' (r + 2) k from rfl,
        List.foldl_cons]
      have hrow := sw_row s n (r + 1) (by omega) (by omega)
      rw [show (3 * ((r + 1 : Nat) : Int) - 3) = 3 * (r : Int) from by push_cast; ring,
        show (r + 1) - 1 = r from by omega] at hrow
      rw [hrow]
      have := ih (r + 1) (by omega)
      rw [show (r + 1) + k = r + (k + 1) from by omega] at this
      exact this

/-- **C2.** `smith_waterman` fills an `(m+1)×(n+1)` matrix, zero on row 0
and column 0, with recurrence `dp[i][j] = max(0, match/mismatch, gap,
gap)`; it updates the best cell only on a strictly greater score (equal
scores keep the earliest-found maximum), recording the prefixes
`seq1[0:i]` and `seq2[0:j]`; with default scores (match 3, mismatch -3,
gap -2) on two identical sequences it returns `score == 3*len(seq)` and
both returned strings equal to the full sequence. -/
theorem claim_C2 :
    (∀ (seq1 seq2 : List Char) (ms mms gp : Int) (i j : Nat),
      score_matrix seq1 seq2 ms mms gp (i + 1) (j + 1) =
        max 0 (max
          (score_matrix seq1 seq2 ms mms gp i j +
            (if charAt seq1 i = charAt seq2 j then ms else mms))
          (max (score_matrix seq1 seq2 ms mms gp i (j + 1) + gp)
            (score_matrix seq1 seq2 ms mms gp (i + 1) j + gp)))) ∧
    (∀ (seq1 seq2 : List Char) (ms mms gp : Int)
      (st : Int × List Char × List Char) (ij : Nat × Nat),
      score_matrix seq1 seq2 ms mms gp ij.1 ij.2 ≤ st.1 →
      swStep seq1 seq2 ms mms gp st ij = st) ∧
    (∀ s : List Char, smith_waterman s s = (3 * (s.length : Int), s, s)) := by
  refine ⟨fun seq1 seq2 ms mms gp i j => by simp only [score_matrix],
    fun seq1 seq2 ms mms gp st ij hle => by
      unfold swStep
      rw [if_neg (not_lt.mpr hle)], ?_⟩
  intro s
  unfold smith_waterman cells
  rw [foldl_flatMap]
  simp only [List.foldl_map]
  have h0 := sw_outer s s.length s.length 0 (by omega)
  simp only [Nat.cast_zero, mul_zero, List.take_zero, Nat.zero_add, zero_add] at h0
  rw [h0, List.take_length]

/-- Closed instance of the strict-improvement tie policy of `claim_C2`. -/
theorem claim_C2_witness :
    swStep "a".toList "a".toList 3 (-3) (-2) (5, [], []) (1, 1) = (5, [], []) :=
  claim_C2.2.1 "a".toList "a".toList 3 (-3) (-2) (5, [], []) (1, 1)
    (by norm_num [score_matrix, charAt])

lemma levRec_nil_right : ∀ l : List Char, levRec l [] = l.length := by
  intro l
  cases l with
  | nil => rw [levRec]
  | cons x xs => rw [levRec]; rfl

/-- Taking one more element appends the indexed character at the end, so
it conses it onto the reversed prefix. -/
lemma reverse_take_succ (a : List Char) (i : Nat) (h : i < a.length) :
    (a.take (i + 1)).reverse = charAt a i :: (a.take i).reverse := by
  rw [List.take_succ]
  have hg : a[i]? = some (charAt a i) := by
    rw [List.getElem?_eq_getElem h]
    unfold charAt
    rw [List.getD_eq_getElem a 'A' h]
  rw [hg]
  simp

/-- The DP matrix of the source equals the head recursion applied to the
reversed prefixes. -/
lemma levDP_eq_levRec (a b : List Char) : ∀ i j, i ≤ a.length → j ≤ b.length →
    levDP a b i j = levRec ((a.take i).reverse) ((b.take j).reverse) := by
  have H : ∀ n i j, i + j ≤ n → i ≤ a.length → j ≤ b.length →
      levDP a b i j = levRec ((a.take i).reverse) ((b.take j).reverse) := by
    intro n
    induction n with
    | zero =>
        intro i j h _ _
        obtain ⟨rfl, rfl⟩ : i = 0 ∧ j = 0 := by omega
        simp [levDP, levRec]
    | succ n ih =>
        intro i j h hi hj
        match i, j with
        | 0, j =>
            rw [levDP]
            simp only [List.take_zero, List.reverse_nil, levRec]
            rw [List.length_reverse, List.length_take]
            omega
        | i + 1, 0 =>
            rw [levDP]
            simp only [List.take_zero, List.reverse_nil, levRec_nil_right]
            rw [List.length_reverse, List.length_take]
            omega
        | i + 1, j + 1 =>
            rw [levDP, reverse_take_succ a i (by omega), reverse_take_succ b j (by omega),
              levRec]
            rw [ih i (j + 1) (by omega) (by omega) (by omega),
              ih (i + 1) j (by omega) (by omega) (by omega),
              ih i j (by omega) (by omega) (by omega)]
            rw [reverse_take_succ a i (by omega), reverse_take_succ b j (by omega)]
  exact fun i j hi hj => H (i + j) i j le_rfl hi hj

/-- The source's Levenshtein distance is the head recursion on the
reversed strings. -/
lemma levenshtein_eq_levRec (a b : List Char) :
    levenshtein_distance a b = levRec a.reverse b.reverse := by
  unfold levenshtein_distance
  rw [levDP_eq_levRec a b _ _ le_rfl le_rfl, List.take_length, List.take_length]

lemma levRec_comm : ∀ a b : List Char, levRec a b = levRec b a := by
  intro a
  induction a with
  | nil =>
      intro b
      rw [levRec_nil_right]
      cases b <;> simp [levRec]
  | cons x xs ih =>
      intro b
      induction b with
      | nil => rw [levRec_nil_right]; rw [levRec]
      | cons y ys ih2 =>
          rw [levRec, levRec]
          rw [ih (y :: ys), ih ys, ← ih2]
          have hc : (if x = y then 0 else 1) = (if y = x then 0 else 1) := by
            by_cases hxy : x = y
            · rw [if_pos hxy, if_pos hxy.symm]
            · rw [if_neg hxy, if_neg (fun hyx => hxy hyx.symm)]
          rw [hc]
          omega

lemma stepCost_some_none (x : Char) : stepCost (some x, none) = 1 := rfl

lemma stepCost_none_some (y : Char) : stepCost (none, some y) = 1 := rfl

lemma stepCost_some_some (x y : Char) :
    stepCost (some x, some y) = if x = y then 0 else 1 := rfl

lemma alignCost_cons (p : Option Char × Option Char)
    (t : List (Option Char × Option Char)) :
    alignCost (p :: t) = stepCost p + alignCost t := by
  simp [alignCost]

lemma alignLeft_cons_some (c : Char) (o : Option Char)
    (t : List (Option Char × Option Char)) :
    alignLeft ((some c, o) :: t) = c :: alignLeft t := rfl

lemma alignLeft_cons_none (o : Option Char) (t : List (Option Char × Option Char)) :
    alignLeft ((none, o) :: t) = alignLeft t := rfl

lemma alignRight_cons_some (o : Option Char) (c : Char)
    (t : List (Option Char × Option Char)) :
    alignRight ((o, some c) :: t) = c :: alignRight t := rfl

lemma alignRight_cons_none (o : Option Char) (t : List (Option Char × Option Char)) :
    alignRight ((o, none) :: t) = alignRight t := rfl

lemma levRec_cons_left (x : Char) (l r : List Char) :
    levRec (x :: l) r ≤ levRec l r + 1 := by
  cases r with
  | nil => rw [levRec_nil_right, levRec_nil_right]; simp
  | cons y ys =>
      rw [levRec]
      exact le_trans (min_le_left _ _) le_rfl

lemma levRec_cons_right (l : List Char) (y : Char) (r : List Char) :
    levRec l (y :: r) ≤ levRec l r + 1 := by
  cases l with
  | nil => rw [levRec, levRec]; simp
  | cons x xs =>
      rw [levRec]
      exact le_trans (min_le_right _ _) (le_trans (min_le_left _ _) le_rfl)

lemma levRec_cons_both (x y : Char) (l r : List Char) :
    levRec (x :: l) (y :: r) ≤ levRec l r + if x = y then 0 else 1 := by
  rw [levRec]
  exact le_trans (min_le_right _ _) (min_le_right _ _)

/-- The Levenshtein distance is a lower bound on the cost of any
`(none,none)`-free alignment of two strings. -/
lemma levRec_le_cost : ∀ al : List (Option Char × Option Char),
    (none, none) ∉ al → levRec (alignLeft al) (alignRight al) ≤ alignCost al := by
  intro al
  induction al with
  | nil => intro _; simp [alignLeft, alignRight, alignCost, levRec]
  | cons p t ih =>
      intro hn
      have hnt : (none, none) ∉ t := fun h => hn (List.mem_cons_of_mem p h)
      have hrec := ih hnt
      obtain ⟨xo, yo⟩ := p
      match xo, yo with
      | some x, some y =>
          simp only [alignLeft, alignRight, alignCost, List.filterMap_cons, List.map_cons,
            List.sum_cons, stepCost_some_some] at hrec ⊢
          have hstep := levRec_cons_both x y (t.filterMap Prod.fst) (t.filterMap Prod.snd)
          by_cases hxy : x = y <;> simp only [hxy, if_true, if_neg] at hstep ⊢ <;> omega
      | some x, none =>
          simp only [alignLeft, alignRight, alignCost, List.filterMap_cons, List.map_cons,
            List.sum_cons, stepCost_some_none] at hrec ⊢
          have hstep := levRec_cons_left x (t.filterMap Prod.fst) (t.filterMap Prod.snd)
          omega
      | none, some y =>
          simp only [alignLeft, alignRight, alignCost, List.filterMap_cons, List.map_cons,
            List.sum_cons, stepCost_none_some] at hrec ⊢
          have hstep := levRec_cons_right (t.filterMap Prod.fst) y (t.filterMap Prod.snd)
          omega
      | none, none => exact absurd (List.mem_cons_self _ t) hn

/-- The cost of the all-insertions alignment is the inserted length. -/
lemma alignCost_all_right (b : List Char) :
    alignCost (b.map fun y => (none, some y)) = b.length := by
  induction b with
  | nil => rfl
  | cons y ys ih =>
      rw [List.map_cons, alignCost_cons, stepCost_none_some, ih, List.length_cons]
      omega

/-- The cost of the all-deletions alignment is the deleted length. -/
lemma alignCost_all_left (a : List Char) :
    alignCost (a.map fun c => (some c, none)) = a.length := by
  induction a with
  | nil => rfl
  | cons c cs ih =>
      rw [List.map_cons, alignCost_cons, stepCost_some_none, ih, List.length_cons]
      omega

/-- Some `(none,none)`-free alignment of `a` and `b` attains the
Levenshtein distance. -/
lemma exists_align : ∀ a b : List Char, ∃ al : List (Option Char × Option Char),
    (none, none) ∉ al ∧ alignLeft al = a ∧ alignRight al = b ∧
    alignCost al ≤ levRec a b := by
  intro a
  induction a with
  | nil =>
      intro b
      refine ⟨b.map fun y => (none, some y), ?_, ?_, ?_, ?_⟩
      · simp
      · simp [alignLeft, List.filterMap_map]
      · rw [alignRight, List.filterMap_map]
        exact List.filterMap_some b
      · rw [levRec, alignCost_all_right]
  | cons x xs ih =>
      intro b
      induction b with
      | nil =>
          refine ⟨(x :: xs).map fun c => (some c, none), ?_, ?_, ?_, ?_⟩
          · simp
          · rw [alignLeft, List.filterMap_map]
            exact List.filterMap_some (x :: xs)
          · simp [alignRight, List.filterMap_map]
          · rw [levRec_nil_right, alignCost_all_left]
      | cons y ys ih2 =>
          obtain ⟨alA, hnA, hlA, hrA, hcA⟩ := ih (y :: ys)
          obtain ⟨alB, hnB, hlB, hrB, hcB⟩ := ih2
          obtain ⟨alC, hnC, hlC, hrC, hcC⟩ := ih ys
          rw [levRec]
          rcases le_total (levRec xs (y :: ys) + 1)
            (min (levRec (x :: xs) ys + 1)
              (levRec xs ys + if x = y then 0 else 1)) with hA | hBC
          · refine ⟨(some x, none) :: alA, ?_, ?_, ?_, ?_⟩
            · intro hmem
              rcases List.mem_cons.1 hmem with heq | hmem'
              · exact absurd heq.symm (by simp)
              · exact hnA hmem'
            · rw [alignLeft_cons_some, hlA]
            · rw [alignRight_cons_none, hrA]
            · rw [min_eq_left hA, alignCost_cons, stepCost_some_none]
              omega
          · rcases le_total (levRec (x :: xs) ys + 1)
              (levRec xs ys + if x = y then 0 else 1) with hB | hC
            · refine ⟨(none, some y) :: alB, ?_, ?_, ?_, ?_⟩
              · intro hmem
                rcases List.mem_cons.1 hmem with heq | hmem'
                · exact absurd heq.symm (by simp)
                · exact hnB hmem'
              · rw [alignLeft_cons_none, hlB]
              · rw [alignRight_cons_some, hrB]
              · rw [min_eq_right hBC, min_eq_left hB, alignCost_cons, stepCost_none_some]
                omega
            · refine ⟨(some x, some y) :: alC, ?_, ?_, ?_, ?_⟩
              · intro hmem
                rcases List.mem_cons.1 hmem with heq | hmem'
                · exact absurd heq.symm (by simp)
                · exact hnC hmem'
              · rw [alignLeft_cons_some, hlC]
              · rw [alignRight_cons_some, hrC]
              · rw [min_eq_right hBC, min_eq_right hC, alignCost_cons, stepCost_some_some]
                by_cases hxy : x = y
                · rw [if_pos hxy]
                  omega
                · rw [if_neg hxy]
                  omega

lemma stepCost_none_none : stepCost (none, none) = 1 := rfl

/-- Composing two columns through a shared middle character costs at most
the sum of the two columns. -/
lemma stepCost_comp (x z : Option Char) (m : Char) :
    stepCost (x, z) ≤ stepCost (x, some m) + stepCost (some m, z) := by
  match x, z with
  | none, none =>
      rw [stepCost_none_none, stepCost_none_some, stepCost_some_none]
      omega
  | none, some d =>
      rw [stepCost_none_some d, stepCost_none_some m, stepCost_some_some m d]
      split <;> omega
  | some c, none =>
      rw [stepCost_some_none c, stepCost_some_none m, stepCost_some_some c m]
      split <;> omega
  | some c, some d =>
      rw [stepCost_some_some c d, stepCost_some_some c m, stepCost_some_some m d]
      by_cases h1 : c = m <;> by_cases h2 : m = d <;> by_cases h3 : c = d <;>
        simp_all

/-- Composition of alignments: it aligns the outer strings, stays
`(none,none)`-free, and costs at most the sum of the costs. -/
lemma compAlign_spec : ∀ al1 al2 : List (Option Char × Option Char),
    alignRight al1 = alignLeft al2 →
    (none, none) ∉ al1 → (none, none) ∉ al2 →
    alignLeft (compAlign al1 al2) = alignLeft al1 ∧
    alignRight (compAlign al1 al2) = alignRight al2 ∧
    (none, none) ∉ compAlign al1 al2 ∧
    alignCost (compAlign al1 al2) ≤ alignCost al1 + alignCost al2 := by
  intro al1 al2
  induction al1, al2 using compAlign.induct with
  | case1 =>
      intro _ _ _
      simp [compAlign]
  | case2 z t2 ih =>
      intro hmid hn1 hn2
      cases z with
      | none => exact absurd (List.mem_cons_self _ _) hn2
      | some d =>
          rw [alignLeft_cons_none] at hmid
          have hn2' : (none, none) ∉ t2 := fun h => hn2 (List.mem_cons_of_mem _ h)
          obtain ⟨ihL, ihR, ihN, ihC⟩ := ih hmid hn1 hn2'
          simp only [compAlign]
          refine ⟨?_, ?_, ?_, ?_⟩
          · rw [alignLeft_cons_none]; exact ihL
          · rw [alignRight_cons_some, alignRight_cons_some, ihR]
          · intro hmem
            rcases List.mem_cons.1 hmem with heq | hmem'
            · simp at heq
            · exact ihN hmem'
          · simp only [alignCost_cons, stepCost_none_some, stepCost_some_none,
              stepCost_some_some] at ihC ⊢
            omega
  | case3 val snd tail =>
      intro hmid _ _
      rw [alignLeft_cons_some] at hmid
      simp [alignRight] at hmid
  | case4 x t1 al2 ih =>
      intro hmid hn1 hn2
      cases x with
      | none => exact absurd (List.mem_cons_self _ _) hn1
      | some c =>
          rw [alignRight_cons_none] at hmid
          have hn1' : (none, none) ∉ t1 := fun h => hn1 (List.mem_cons_of_mem _ h)
          obtain ⟨ihL, ihR, ihN, ihC⟩ := ih hmid hn1' hn2
          simp only [compAlign]
          refine ⟨?_, ?_, ?_, ?_⟩
          · rw [alignLeft_cons_some, alignLeft_cons_some, ihL]
          · rw [alignRight_cons_none]; exact ihR
          · intro hmem
            rcases List.mem_cons.1 hmem with heq | hmem'
            · simp at heq
            · exact ihN hmem'
          · simp only [alignCost_cons, stepCost_none_some, stepCost_some_none,
              stepCost_some_some] at ihC ⊢
            omega
  | case5 fst val tail =>
      intro hmid _ _
      rw [alignRight_cons_some] at hmid
      simp [alignLeft] at hmid
  | case6 x m t1 z t2 ih =>
      intro hmid hn1 hn2
      cases z with
      | none => exact absurd (List.mem_cons_self _ _) hn2
      | some d =>
          rw [alignLeft_cons_none] at hmid
          have hn2' : (none, none) ∉ t2 := fun h => hn2 (List.mem_cons_of_mem _ h)
          obtain ⟨ihL, ihR, ihN, ihC⟩ := ih hmid hn1 hn2'
          simp only [compAlign]
          refine ⟨?_, ?_, ?_, ?_⟩
          · rw [alignLeft_cons_none]; exact ihL
          · rw [alignRight_cons_some, alignRight_cons_some, ihR]
          · intro hmem
            rcases List.mem_cons.1 hmem with heq | hmem'
            · simp at heq
            · exact ihN hmem'
          · simp only [alignCost_cons, stepCost_none_some, stepCost_some_none,
              stepCost_some_some] at ihC ⊢
            omega
  | case7 x val t1 val_1 z t2 h ih =>
      intro hmid hn1 hn2
      obtain ⟨rfl, rfl⟩ := h
      rw [alignRight_cons_some, alignLeft_cons_some] at hmid
      injection hmid with hm hmid'
      subst hm
      have hn1' : (none, none) ∉ t1 := fun h' => hn1 (List.mem_cons_of_mem _ h')
      have hn2' : (none, none) ∉ t2 := fun h' => hn2 (List.mem_cons_of_mem _ h')
      obtain ⟨ihL, ihR, ihN, ihC⟩ := ih hmid' hn1' hn2'
      simp only [compAlign, eq_self_iff_true, and_self, if_true]
      refine ⟨?_, ?_, ?_, ?_⟩
      · rw [alignLeft_cons_none]; exact ihL
      · rw [alignRight_cons_none]; exact ihR
      · exact ihN
      · simp only [alignCost_cons, stepCost_none_some, stepCost_some_none,
          stepCost_some_some] at ihC ⊢
        omega
  | case8 x val t1 val_1 z t2 h ih =>
      intro hmid hn1 hn2
      rw [alignRight_cons_some, alignLeft_cons_some] at hmid
      injection hmid with hm hmid'
      subst hm
      have hn1' : (none, none) ∉ t1 := fun h' => hn1 (List.mem_cons_of_mem _ h')
      have hn2' : (none, none) ∉ t2 := fun h' => hn2 (List.mem_cons_of_mem _ h')
      obtain ⟨ihL, ihR, ihN, ihC⟩ := ih hmid' hn1' hn2'
      simp only [compAlign, if_neg h]
      refine ⟨?_, ?_, ?_, ?_⟩
      · cases x with
        | none => rw [alignLeft_cons_none, alignLeft_cons_none]; exact ihL
        | some c => rw [alignLeft_cons_some, alignLeft_cons_some, ihL]
      · cases z with
        | none => rw [alignRight_cons_none, alignRight_cons_none]; exact ihR
        | some d => rw [alignRight_cons_some, alignRight_cons_some, ihR]
      · intro hmem
        rcases List.mem_cons.1 hmem with heq | hmem'
        · rw [Prod.mk.injEq] at heq
          exact h ⟨heq.1.symm, heq.2.symm⟩
        · exact ihN hmem'
      · simp only [alignCost_cons] at ihC ⊢
        have hs := stepCost_comp x z val
        omega

/-- Triangle inequality for the head-recursive Levenshtein distance. -/
lemma levRec_triangle (a b c : List Char) :
    levRec a c ≤ levRec a b + levRec b c := by
  obtain ⟨al1, hn1, hl1, hr1, hc1⟩ := exists_align a b
  obtain ⟨al2, hn2, hl2, hr2, hc2⟩ := exists_align b c
  have hmid : alignRight al1 = alignLeft al2 := by rw [hr1, hl2]
  obtain ⟨hL, hR, hN, hC⟩ := compAlign_spec al1 al2 hmid hn1 hn2
  have hle := levRec_le_cost (compAlign al1 al2) hN
  rw [hL, hR, hl1, hr2] at hle
  omega

/-! ## Claim C9: triangle inequality for `levenshtein_distance` -/

/-- **C9.** For all strings `a`, `b`, `c`:
`levenshtein(a,c) <= levenshtein(a,b) + levenshtein(b,c)`. -/
theorem claim_C9 : ∀ a b c : List Char,
    levenshtein_distance a c ≤
      levenshtein_distance a b + levenshtein_distance b c := by
  intro a b c
  rw [levenshtein_eq_levRec, levenshtein_eq_levRec, levenshtein_eq_levRec]
  exact levRec_triangle a.reverse b.reverse c.reverse

lemma gRun_nil_right (d : Int) : ∀ ps : List Nat, gRun d ps [] = ([], []) := by
  intro ps
  cases ps <;> rw [gRun]

/-- `gRun` processes its first list left to right: a split of the `p` list
runs the second part on the leftover of the first. -/
lemma gRun_append (d : Int) : ∀ ps1 qs ps2 : List Nat,
    gRun d (ps1 ++ ps2) qs =
      ((gRun d ps1 qs).1 ++ (gRun d ps2 (gRun d ps1 qs).2).1,
        (gRun d ps2 (gRun d ps1 qs).2).2) := by
  intro ps1 qs
  induction ps1, qs using gRun.induct d with
  | case1 qs => intro ps2; simp [gRun]
  | case2 p ps =>
      intro ps2
      simp [gRun_nil_right]
  | case3 p ps q qs h1 ih =>
      intro ps2
      rw [show (p :: ps) ++ ps2 = p :: (ps ++ ps2) from rfl]
      rw [gRun, if_pos h1, ← show (p :: ps) ++ ps2 = p :: (ps ++ ps2) from rfl, ih]
      rw [show gRun d (p :: ps) (q :: qs) = gRun d (p :: ps) qs from by rw [gRun, if_pos h1]]
  | case4 p ps q qs h1 h2 ih =>
      intro ps2
      rw [show (p :: ps) ++ ps2 = p :: (ps ++ ps2) from rfl]
      rw [gRun, if_neg h1, if_pos h2, ih]
      rw [show gRun d (p :: ps) (q :: qs) =
        ((p, q) :: (gRun d ps qs).1, (gRun d ps qs).2) from by rw [gRun, if_neg h1, if_pos h2]]
      simp
  | case5 p ps q qs h1 h2 ih =>
      intro ps2
      rw [show (p :: ps) ++ ps2 = p :: (ps ++ ps2) from rfl]
      rw [gRun, if_neg h1, if_neg h2, ih]
      rw [show gRun d (p :: ps) (q :: qs) = gRun d ps (q :: qs) from by
        rw [gRun, if_neg h1, if_neg h2]]

/-- For a nonnegative window radius the two-pointer matching is symmetric:
swapping the position lists swaps every matched pair. -/
lemma gRun_swap (d : Int) (hd : 0 ≤ d) : ∀ ps qs : List Nat,
    (gRun d qs ps).1 = (gRun d ps qs).1.map (fun pq => (pq.2, pq.1)) := by
  have H : ∀ (n : Nat) (ps qs : List Nat), ps.length + qs.length ≤ n →
      (gRun d qs ps).1 = (gRun d ps qs).1.map (fun pq => (pq.2, pq.1)) := by
    intro n
    induction n with
    | zero =>
        intro ps qs h
        obtain ⟨rfl, rfl⟩ : ps = [] ∧ qs = [] := by
          cases ps <;> cases qs <;> simp_all
        simp [gRun]
    | succ n ih =>
        intro ps qs h
        match ps, qs with
        | [], qs => rw [gRun_nil_right, gRun]; simp
        | p :: ps, [] => rw [gRun_nil_right, gRun]; simp
        | p :: ps, q :: qs =>
            by_cases h1 : (q : Int) < (p : Int) - d
            · have hL : gRun d (q :: qs) (p :: ps) = gRun d qs (p :: ps) := by
                rw [gRun]
                rw [if_neg (by omega), if_neg (by omega)]
              have hR : gRun d (p :: ps) (q :: qs) = gRun d (p :: ps) qs := by
                rw [gRun, if_pos h1]
              rw [hL, hR]
              exact ih (p :: ps) qs (by simp at h ⊢; omega)
            · by_cases h2 : (q : Int) ≤ (p : Int) + d
              · have hL : gRun d (q :: qs) (p :: ps) =
                    ((q, p) :: (gRun d qs ps).1, (gRun d qs ps).2) := by
                  rw [gRun]
                  rw [if_neg (by omega), if_pos (by omega)]
                have hR : gRun d (p :: ps) (q :: qs) =
                    ((p, q) :: (gRun d ps qs).1, (gRun d ps qs).2) := by
                  rw [gRun, if_neg h1, if_pos h2]
                rw [hL, hR]
                simp only [List.map_cons]
                rw [ih ps qs (by simp at h ⊢; omega)]
              · have hL : gRun d (q :: qs) (p :: ps) = gRun d (q :: qs) ps := by
                  rw [gRun]
                  rw [if_pos (by omega)]
                have hR : gRun d (p :: ps) (q :: qs) = gRun d ps (q :: qs) := by
                  rw [gRun, if_neg h1, if_neg h2]
                rw [hL, hR]
                exact ih ps (q :: qs) (by simp at h ⊢; omega)
  exact fun ps qs => H (ps.length + qs.length) ps qs le_rfl

/-- The leftover list of `gRun` is a sublist of the `q` list. -/
lemma gRun_leftover_sublist (d : Int) : ∀ ps qs : List Nat,
    (gRun d ps qs).2.Sublist qs := by
  intro ps qs
  induction ps, qs using gRun.induct d with
  | case1 qs => rw [gRun]
  | case2 p ps => rw [gRun_nil_right]
  | case3 p ps q qs h1 ih =>
      rw [gRun, if_pos h1]
      exact ih.cons q
  | case4 p ps q qs h1 h2 ih =>
      rw [gRun, if_neg h1, if_pos h2]
      exact ih.cons q
  | case5 p ps q qs h1 h2 ih =>
      rw [gRun, if_neg h1, if_neg h2]
      exact ih

/-- Every matched pair of `gRun` takes its components from the two input
lists. -/
lemma gRun_pairs_mem (d : Int) : ∀ ps qs : List Nat, ∀ pq ∈ (gRun d ps qs).1,
    pq.1 ∈ ps ∧ pq.2 ∈ qs := by
  intro ps qs
  induction ps, qs using gRun.induct d with
  | case1 qs => rw [gRun]; simp
  | case2 p ps => rw [gRun_nil_right]; simp
  | case3 p ps q qs h1 ih =>
      rw [gRun, if_pos h1]
      intro pq hpq
      obtain ⟨hm1, hm2⟩ := ih pq hpq
      exact ⟨hm1, List.mem_cons_of_mem q hm2⟩
  | case4 p ps q qs h1 h2 ih =>
      rw [gRun, if_neg h1, if_pos h2]
      intro pq hpq
      rcases List.mem_cons.1 hpq with rfl | hpq'
      · exact ⟨List.mem_cons_self p ps, List.mem_cons_self q qs⟩
      · obtain ⟨hm1, hm2⟩ := ih pq hpq'
        exact ⟨List.mem_cons_of_mem p hm1, List.mem_cons_of_mem q hm2⟩
  | case5 p ps q qs h1 h2 ih =>
      rw [gRun, if_neg h1, if_neg h2]
      intro pq hpq
      obtain ⟨hm1, hm2⟩ := ih pq hpq
      exact ⟨List.mem_cons_of_mem p hm1, hm2⟩

/-- A `q` that is neither matched nor leftover was skipped below the
window of some processed `p`, hence lies below `P - d` for any upper
bound `P` of the `p` list. -/
lemma gRun_drop_bound (d : Int) (P : Nat) : ∀ ps qs : List Nat,
    (∀ p ∈ ps, p ≤ P) → ∀ q ∈ qs, q ∉ (gRun d ps qs).2 →
    q ∈ (gRun d ps qs).1.map Prod.snd ∨ (q : Int) < (P : Int) - d := by
  intro ps qs
  induction ps, qs using gRun.induct d with
  | case1 qs =>
      rw [gRun]
      intro _ q hq hq2
      exact absurd hq hq2
  | case2 p ps => simp
  | case3 p ps q' qs h1 ih =>
      rw [gRun, if_pos h1]
      intro hP q hq hq2
      rcases List.mem_cons.1 hq with rfl | hq'
      · right
        have := hP p (List.mem_cons_self p ps)
        omega
      · exact ih hP q hq' hq2
  | case4 p ps q' qs h1 h2 ih =>
      rw [gRun, if_neg h1, if_pos h2]
      intro hP q hq hq2
      rcases List.mem_cons.1 hq with rfl | hq'
      · left
        simp
      · rcases ih (fun p' hp' => hP p' (List.mem_cons_of_mem p hp')) q hq' hq2 with hm | hb
        · left
          rw [List.map_cons]
          exact List.mem_cons_of_mem _ hm
        · right
          exact hb
  | case5 p ps q' qs h1 h2 ih =>
      rw [gRun, if_neg h1, if_neg h2]
      intro hP q hq hq2
      exact ih (fun p' hp' => hP p' (List.mem_cons_of_mem p hp')) q hq hq2

/-- One step of the two-pointer run, in closed form: skip the below-window
positions, then match the first in-window one if any. -/
lemma gRun_single (d : Int) (i : Nat) : ∀ rest : List Nat,
    gRun d [i] rest =
      match rest.dropWhile (fun q : Nat => decide ((q : Int) < (i : Int) - d)) with
      | [] => ([], [])
      | q₀ :: rest'' =>
          if (q₀ : Int) ≤ (i : Int) + d then ([(i, q₀)], rest'')
          else ([], q₀ :: rest'') := by
  intro rest
  induction rest with
  | nil => rw [gRun_nil_right]; rfl
  | cons q rs ih =>
      by_cases h1 : (q : Int) < (i : Int) - d
      · rw [gRun, if_pos h1, ih, List.dropWhile_cons_of_pos (by simpa using h1)]
      · rw [gRun, if_neg h1, List.dropWhile_cons_of_neg (by simpa using h1)]
        by_cases h2 : (q : Int) ≤ (i : Int) + d
        · rw [if_pos h2]
          simp only [if_pos h2]
          rw [show gRun d ([] : List Nat) rs = ([], rs) from by rw [gRun]]
        · rw [if_neg h2]
          simp only [if_neg h2]
          rw [show gRun d ([] : List Nat) (q :: rs) = ([], q :: rs) from by rw [gRun]]

/-! ## Indexed-list helper lemmas for the matching loop -/

lemma getD_set_self (l : List Bool) (i : Nat) (x d : Bool) (h : i < l.length) :
    (l.set i x).getD i d = x := by
  simp [List.getD_eq_getElem?_getD, List.getElem?_set, h]

lemma getD_set_ne (l : List Bool) (i j : Nat) (x d : Bool) (h : i ≠ j) :
    (l.set i x).getD j d = l.getD j d := by
  simp [List.getD_eq_getElem?_getD, List.getElem?_set, h]

/-- Folding over a filtered list is folding with a guard. -/
lemma foldl_filter {α β : Type} (p : β → Bool) (f : α → β → α) :
    ∀ (l : List β) (init : α),
    (l.filter p).foldl f init = l.foldl (fun st x => if p x then f st x else st) init := by
  intro l
  induction l with
  | nil => intro init; rfl
  | cons b t ih =>
      intro init
      by_cases hb : p b
      · rw [List.filter_cons_of_pos hb, List.foldl_cons, List.foldl_cons, if_pos hb, ih]
      · rw [List.filter_cons_of_neg hb, List.foldl_cons, if_neg hb, ih]

/-- Setting a false entry to true increments the true count. -/
lemma countP_set_true (l : List Bool) : ∀ (i : Nat), i < l.length →
    l.getD i false = false →
    (l.set i true).countP (fun x => x) = l.countP (fun x => x) + 1 := by
  induction l with
  | nil => intro i h; simp at h
  | cons b t ih =>
      intro i hi hf
      cases i with
      | zero =>
          simp only [List.getD_cons_zero] at hf
          subst hf
          simp [List.set, List.countP_cons]
      | succ n =>
          simp only [List.getD_cons_succ] at hf
          simp only [List.set, List.countP_cons]
          rw [ih n (by simpa using hi) hf]
          omega

/-- Bounds of membership in the scan window: `j` lies in the window of
`i` exactly when it is within distance `d` (on the right-open side) and
inside `str2`. -/
lemma mem_window (d : Int) (i len2 j : Nat) :
    j ∈ window d i len2 ↔
      ((i : Int) - d ≤ (j : Int) ∧ (j : Int) < (i : Int) + d + 1 ∧ j < len2) := by
  show j ∈ List.range' (max 0 ((i : Int) - d)).toNat
      ((min ((i : Int) + d + 1) (len2 : Int) - max 0 ((i : Int) - d)).toNat) ↔ _
  rw [List.mem_range'_1]
  omega

/-- `find?` on an ascending integer range returns the smallest hit. -/
lemma find?_range'_eq_some (p : Nat → Bool) :
    ∀ (l s j : Nat), s ≤ j → j < s + l → p j = true →
    (∀ j', s ≤ j' → j' < j → p j' = false) →
    (List.range' s l).find? p = some j := by
  intro l
  induction l with
  | zero => intro s j h1 h2; omega
  | succ l ih =>
      intro s j h1 h2 hj hmin
      rw [show List.range' s (l + 1) = s :: List.range' (s + 1) l from rfl, List.find?_cons]
      rcases Nat.eq_or_lt_of_le h1 with rfl | hlt
      · rw [hj]
      · rw [hmin s le_rfl hlt]
        exact ih (s + 1) j hlt (by omega) hj fun j' h' h'' => hmin j' (by omega) h''

/-- If the head of a `dropWhile` result exists it fails the predicate. -/
lemma dropWhile_head_not (p : Nat → Bool) :
    ∀ (l : List Nat) (q : Nat) (rest : List Nat), l.dropWhile p = q :: rest →
    p q = false := by
  intro l
  induction l with
  | nil => intro q rest h; simp at h
  | cons b t ih =>
      intro q rest h
      by_cases hb : p b
      · rw [List.dropWhile_cons_of_pos hb] at h
        exact ih q rest h
      · rw [List.dropWhile_cons_of_neg hb] at h
        rw [← (List.cons.injEq ..).mp h |>.1]
        exact Bool.not_eq_true _ ▸ (by simpa using hb)

lemma posOf_sorted (c : Char) (s : List Char) : (posOf c s).Pairwise (· < ·) :=
  (List.pairwise_lt_range s.length).filter _

lemma mem_posOf {c : Char} {s : List Char} {q : Nat} :
    q ∈ posOf c s ↔ q < s.length ∧ charAt s q = c := by
  simp [posOf, List.mem_filter, List.mem_range]

lemma mem_posUpTo {i : Nat} {c : Char} {s : List Char} {p : Nat} :
    p ∈ posUpTo i c s ↔ p < i ∧ charAt s p = c := by
  simp [posUpTo, List.mem_filter, List.mem_range]

lemma posUpTo_zero (c : Char) (s : List Char) : posUpTo 0 c s = [] := rfl

lemma posUpTo_succ_eq (i : Nat) (c : Char) (s : List Char) (h : charAt s i = c) :
    posUpTo (i + 1) c s = posUpTo i c s ++ [i] := by
  unfold posUpTo
  rw [List.range_succ, List.filter_append]
  simp [h]

lemma posUpTo_succ_ne (i : Nat) (c : Char) (s : List Char) (h : charAt s i ≠ c) :
    posUpTo (i + 1) c s = posUpTo i c s := by
  unfold posUpTo
  rw [List.range_succ, List.filter_append]
  simp [h]

lemma posUpTo_length (c : Char) (s : List Char) : posUpTo s.length c s = posOf c s := rfl

lemma getD_replicate_false (n p : Nat) : (List.replicate n false).getD p false = false := by
  rw [List.getD_eq_getElem?_getD, List.getElem?_replicate]
  split <;> rfl

lemma matchInv_init (a b : List Char) (d : Int) :
    MatchInv a b d 0
      ⟨List.replicate a.length false, List.replicate b.length false, 0⟩ := by
  refine ⟨List.length_replicate _ _, List.length_replicate _ _, ?_, ?_, ?_, ?_⟩
  · intro p _
    rw [posUpTo_zero, gRun]
    simp [getD_replicate_false]
  · intro q _
    rw [posUpTo_zero, gRun]
    simp [getD_replicate_false]
  · intro c q hq _
    rw [posUpTo_zero, gRun]
    exact Or.inl hq
  · intro c q _
    exact getD_replicate_false _ _

/-- `find?` on a window returns the smallest position satisfying the
predicate. -/
lemma find?_window_eq_some (d : Int) (i len2 q₀ : Nat) (p : Nat → Bool)
    (hmem : q₀ ∈ window d i len2) (hp : p q₀ = true)
    (hmin : ∀ j, j ∈ window d i len2 → j < q₀ → p j = false) :
    (window d i len2).find? p = some q₀ := by
  have hm := hmem
  rw [show window d i len2 = List.range' (max 0 ((i : Int) - d)).toNat
      ((min ((i : Int) + d + 1) (len2 : Int) - max 0 ((i : Int) - d)).toNat) from rfl,
    List.mem_range'_1] at hm
  refine find?_range'_eq_some p _ _ q₀ hm.1 hm.2 hp ?_
  intro j' h1 h2
  refine hmin j' ?_ h2
  rw [show window d i len2 = List.range' (max 0 ((i : Int) - d)).toNat
      ((min ((i : Int) + d + 1) (len2 : Int) - max 0 ((i : Int) - d)).toNat) from rfl,
    List.mem_range'_1]
  exact ⟨h1, by omega⟩

/-- Invariant preservation when the window scan finds nothing (and the
two-pointer run matches nothing either). -/
lemma matchInv_step_of_none (a b : List Char) (d : Int) (i : Nat) (st : MatchState)
    (hinv : MatchInv a b d i st)
    (hpairs_nil :
      (gRun d [i] (gRun d (posUpTo i (charAt a i) a) (posOf (charAt a i) b)).2).1 = [])
    (hfind : (window d i b.length).find?
      (fun j => !(st.matches2.getD j false) && (charAt a i == charAt b j)) = none) :
    MatchInv a b d (i + 1) (matchStep a b d st i) := by
  obtain ⟨hL1, hL2, hM1, hM2, hR, hR2⟩ := hinv
  have hstep : matchStep a b d st i = st := by
    unfold matchStep
    rw [hfind]
  rw [hstep]
  have hact : gRun d (posUpTo (i + 1) (charAt a i) a) (posOf (charAt a i) b) =
      ((gRun d (posUpTo i (charAt a i) a) (posOf (charAt a i) b)).1,
        (gRun d [i] (gRun d (posUpTo i (charAt a i) a) (posOf (charAt a i) b)).2).2) := by
    rw [posUpTo_succ_eq i _ a rfl, gRun_append, hpairs_nil, List.append_nil]
  have hoth : ∀ c, charAt a i ≠ c →
      gRun d (posUpTo (i + 1) c a) (posOf c b) =
        gRun d (posUpTo i c a) (posOf c b) := by
    intro c hc
    rw [posUpTo_succ_ne i c a hc]
  refine ⟨hL1, hL2, ?_, ?_, ?_, ?_⟩
  · intro p hp
    by_cases hpc : charAt a p = charAt a i
    · rw [hpc, hact]
      have h := hM1 p hp
      rw [hpc] at h
      exact h
    · rw [hoth (charAt a p) (fun h => hpc h.symm)]
      exact hM1 p hp
  · intro q hq
    by_cases hqc : charAt b q = charAt a i
    · rw [hqc, hact]
      have h := hM2 q hq
      rw [hqc] at h
      exact h
    · rw [hoth (charAt b q) (fun h => hqc h.symm)]
      exact hM2 q hq
  · intro c q hq hqf
    by_cases hc : charAt a i = c
    · subst hc
      rw [hact]
      rcases hR (charAt a i) q hq hqf with hrest | hlow
      · by_cases hleft :
          q ∈ (gRun d [i] (gRun d (posUpTo i (charAt a i) a) (posOf (charAt a i) b)).2).2
        · exact Or.inl hleft
        · rcases gRun_drop_bound d i [i] _ (by simp) q hrest hleft with him | hb
          · rw [hpairs_nil] at him
            simp at him
          · right
            omega
      · right
        omega
    · rw [hoth c hc]
      rcases hR c q hq hqf with h1 | h2
      · exact Or.inl h1
      · right
        omega
  · intro c q hq
    by_cases hc : charAt a i = c
    · subst hc
      rw [hact] at hq
      exact hR2 _ q ((gRun_leftover_sublist d [i] _).subset hq)
    · rw [hoth c hc] at hq
      exact hR2 c q hq

/-- Invariant preservation when the window scan matches position `q₀` (the
same match the two-pointer run makes). -/
lemma matchInv_step_of_some (a b : List Char) (d : Int) (i : Nat) (st : MatchState)
    (hi : i < a.length) (hinv : MatchInv a b d i st)
    (q₀ : Nat) (rest'' : List Nat)
    (hgs : gRun d [i] (gRun d (posUpTo i (charAt a i) a) (posOf (charAt a i) b)).2 =
      ([(i, q₀)], rest''))
    (hq₀b : q₀ < b.length)
    (hsorted'' : ∀ x ∈ rest'', q₀ < x)
    (hfind : (window d i b.length).find?
      (fun j => !(st.matches2.getD j false) && (charAt a i == charAt b j)) = some q₀) :
    MatchInv a b d (i + 1) (matchStep a b d st i) := by
  obtain ⟨hL1, hL2, hM1, hM2, hR, hR2⟩ := hinv
  have hq₀rest : q₀ ∈ (gRun d (posUpTo i (charAt a i) a) (posOf (charAt a i) b)).2 := by
    have h := gRun_pairs_mem d [i] _ (i, q₀) (by rw [hgs]; simp)
    exact h.2
  have hq₀c : charAt b q₀ = charAt a i :=
    (mem_posOf.mp ((gRun_leftover_sublist d _ _).subset hq₀rest)).2
  have hstep : matchStep a b d st i =
      ⟨st.matches1.set i true, st.matches2.set q₀ true, st.match_count + 1⟩ := by
    unfold matchStep
    rw [hfind]
  rw [hstep]
  have hact : gRun d (posUpTo (i + 1) (charAt a i) a) (posOf (charAt a i) b) =
      ((gRun d (posUpTo i (charAt a i) a) (posOf (charAt a i) b)).1 ++ [(i, q₀)],
        rest'') := by
    rw [posUpTo_succ_eq i _ a rfl, gRun_append, hgs]
  have hoth : ∀ c, charAt a i ≠ c →
      gRun d (posUpTo (i + 1) c a) (posOf c b) =
        gRun d (posUpTo i c a) (posOf c b) := by
    intro c hc
    rw [posUpTo_succ_ne i c a hc]
  have hm1len : i < st.matches1.length := by omega
  have hm2len : q₀ < st.matches2.length := by omega
  refine ⟨by rw [List.length_set]; exact hL1, by rw [List.length_set]; exact hL2,
    ?_, ?_, ?_, ?_⟩
  · intro p hp
    by_cases hpi : p = i
    · subst hpi
      rw [getD_set_self _ _ _ _ hm1len, hact]
      simp
    · rw [getD_set_ne _ _ _ _ _ (fun h => hpi h.symm)]
      by_cases hpc : charAt a p = charAt a i
      · rw [hpc, hact]
        have h := hM1 p hp
        rw [hpc] at h
        rw [show ((gRun d (posUpTo i (charAt a i) a) (posOf (charAt a i) b)).1 ++
            [(i, q₀)], rest'').1 =
          (gRun d (posUpTo i (charAt a i) a) (posOf (charAt a i) b)).1 ++ [(i, q₀)]
          from rfl]
        rw [List.map_append, List.mem_append]
        rw [h]
        simp [hpi]
      · rw [hoth (charAt a p) (fun h => hpc h.symm)]
        exact hM1 p hp
  · intro q hq
    by_cases hqq : q = q₀
    · subst hqq
      rw [getD_set_self _ _ _ _ hm2len, hq₀c, hact]
      simp
    · rw [getD_set_ne _ _ _ _ _ (fun h => hqq h.symm)]
      by_cases hqc : charAt b q = charAt a i
      · rw [hqc, hact]
        have h := hM2 q hq
        rw [hqc] at h
        rw [show ((gRun d (posUpTo i (charAt a i) a) (posOf (charAt a i) b)).1 ++
            [(i, q₀)], rest'').1 =
          (gRun d (posUpTo i (charAt a i) a) (posOf (charAt a i) b)).1 ++ [(i, q₀)]
          from rfl]
        rw [List.map_append, List.mem_append]
        rw [h]
        simp [hqq]
      · rw [hoth (charAt b q) (fun h => hqc h.symm)]
        exact hM2 q hq
  · intro c q hq hqf
    have hqq : q ≠ q₀ := by
      intro h
      subst h
      rw [getD_set_self _ _ _ _ hm2len] at hqf
      simp at hqf
    rw [getD_set_ne _ _ _ _ _ (fun h => hqq h.symm)] at hqf
    by_cases hc : charAt a i = c
    · subst hc
      rw [hact]
      rcases hR (charAt a i) q hq hqf with hrest | hlow
      · by_cases hleft : q ∈ rest''
        · exact Or.inl hleft
        · have hnb : q ∉ (gRun d [i]
              (gRun d (posUpTo i (charAt a i) a) (posOf (charAt a i) b)).2).2 := by
            rw [hgs]
            exact hleft
          rcases gRun_drop_bound d i [i] _ (by simp) q hrest hnb with him | hb
          · rw [hgs] at him
            simp at him
            exact absurd him hqq
          · right
            omega
      · right
        omega
    · rw [hoth c hc]
      rcases hR c q hq hqf with h1 | h2
      · exact Or.inl h1
      · right
        omega
  · intro c q hq
    by_cases hc : charAt a i = c
    · subst hc
      rw [hact] at hq
      have hqrest : q ∈ (gRun d (posUpTo i (charAt a i) a) (posOf (charAt a i) b)).2 :=
        (gRun_leftover_sublist d [i] _).subset (by rw [hgs]; exact hq)
      have hq2 : q ≠ q₀ := fun h => absurd (hsorted'' q hq) (by omega)
      rw [getD_set_ne _ _ _ _ _ (fun h => hq2 h.symm)]
      exact hR2 _ q hqrest
    · rw [hoth c hc] at hq
      have hqchar : charAt b q = c :=
        (mem_posOf.mp ((gRun_leftover_sublist d _ _).subset hq)).2
      have hq2 : q ≠ q₀ := fun h => hc (by rw [← hqchar, h, hq₀c])
      rw [getD_set_ne _ _ _ _ _ (fun h => hq2 h.symm)]
      exact hR2 c q hq

/-- One outer iteration of the matching loop preserves the invariant. -/
lemma matchInv_step (a b : List Char) (d : Int) (i : Nat) (st : MatchState)
    (hi : i < a.length) (hinv : MatchInv a b d i st) :
    MatchInv a b d (i + 1) (matchStep a b d st i) := by
  have hinvc := hinv
  obtain ⟨hL1, hL2, hM1, hM2, hR, hR2⟩ := hinvc
  have hrest_sub := gRun_leftover_sublist d (posUpTo i (charAt a i) a) (posOf (charAt a i) b)
  have hrest_sorted :
      ((gRun d (posUpTo i (charAt a i) a) (posOf (charAt a i) b)).2).Pairwise (· < ·) :=
    (posOf_sorted _ b).sublist hrest_sub
  have hsplit := List.takeWhile_append_dropWhile
    (fun q : Nat => decide ((q : Int) < (i : Int) - d))
    (gRun d (posUpTo i (charAt a i) a) (posOf (charAt a i) b)).2
  have hpred_mem : ∀ j, j ∈ window d i b.length →
      (!(st.matches2.getD j false) && (charAt a i == charAt b j)) = true →
      j ∈ (gRun d (posUpTo i (charAt a i) a) (posOf (charAt a i) b)).2 ∧
        (i : Int) - d ≤ (j : Int) ∧ (j : Int) < (i : Int) + d + 1 := by
    intro j hjw hp
    simp only [Bool.and_eq_true, Bool.not_eq_true', beq_iff_eq] at hp
    rw [mem_window] at hjw
    have hjq : j ∈ posOf (charAt a i) b := mem_posOf.mpr ⟨hjw.2.2, hp.2.symm⟩
    rcases hR (charAt a i) j hjq hp.1 with h1 | h2
    · exact ⟨h1, hjw.1, hjw.2.1⟩
    · exact absurd hjw.1 (by omega)
  have hsingle := gRun_single d i
    (gRun d (posUpTo i (charAt a i) a) (posOf (charAt a i) b)).2
  rcases hdw : (gRun d (posUpTo i (charAt a i) a) (posOf (charAt a i) b)).2.dropWhile
      (fun q : Nat => decide ((q : Int) < (i : Int) - d)) with _ | ⟨q₀, rest''⟩
  · -- the whole leftover is below the window: no match on either side
    simp only [hdw] at hsingle
    have hrest_low : ∀ q ∈ (gRun d (posUpTo i (charAt a i) a) (posOf (charAt a i) b)).2,
        (q : Int) < (i : Int) - d := by
      intro q hq
      rw [hdw, List.append_nil] at hsplit
      rw [← hsplit] at hq
      simpa using List.mem_takeWhile_imp hq
    refine matchInv_step_of_none a b d i st hinv (by rw [hsingle]) ?_
    refine List.find?_eq_none.mpr fun j hjw hp => ?_
    obtain ⟨hjrest, hjlow, _⟩ := hpred_mem j hjw hp
    exact absurd (hrest_low j hjrest) (by omega)
  · simp only [hdw] at hsingle
    have hq₀rest : q₀ ∈ (gRun d (posUpTo i (charAt a i) a) (posOf (charAt a i) b)).2 :=
      (List.dropWhile_sublist _).subset (by rw [hdw]; exact List.mem_cons_self _ _)
    have hq₀b : q₀ < b.length := (mem_posOf.mp (hrest_sub.subset hq₀rest)).1
    have hq₀c : charAt b q₀ = charAt a i := (mem_posOf.mp (hrest_sub.subset hq₀rest)).2
    have hq₀notlow : ¬((q₀ : Int) < (i : Int) - d) := by
      have h := dropWhile_head_not _ _ q₀ rest'' hdw
      simpa using h
    have hsorted'' : ∀ x ∈ rest'', q₀ < x := by
      have hdwsorted := hrest_sorted.sublist
        (List.dropWhile_sublist (fun q : Nat => decide ((q : Int) < (i : Int) - d)))
      rw [hdw] at hdwsorted
      exact (List.pairwise_cons.mp hdwsorted).1
    have hmem_split : ∀ j ∈ (gRun d (posUpTo i (charAt a i) a) (posOf (charAt a i) b)).2,
        ((j : Int) < (i : Int) - d ∨ j = q₀ ∨ j ∈ rest'') := by
      intro j hj
      rw [← hsplit, List.mem_append, hdw] at hj
      rcases hj with hj | hj
      · exact Or.inl (by simpa using List.mem_takeWhile_imp hj)
      · rcases List.mem_cons.mp hj with rfl | hj
        · exact Or.inr (Or.inl rfl)
        · exact Or.inr (Or.inr hj)
    by_cases hq2 : (q₀ : Int) ≤ (i : Int) + d
    · -- the head of the surviving leftover is in the window: both sides match it
      rw [if_pos hq2] at hsingle
      have hq₀unm : st.matches2.getD q₀ false = false := hR2 _ q₀ hq₀rest
      refine matchInv_step_of_some a b d i st hi hinv q₀ rest'' hsingle hq₀b hsorted'' ?_
      refine find?_window_eq_some d i b.length q₀ _ ?_ ?_ ?_
      · rw [mem_window]
        refine ⟨by omega, by omega, hq₀b⟩
      · simp only [Bool.and_eq_true, Bool.not_eq_true', beq_iff_eq]
        exact ⟨hq₀unm, hq₀c.symm⟩
      · intro j hjw hjlt
        by_cases hp : (!(st.matches2.getD j false) && (charAt a i == charAt b j)) = true
        · obtain ⟨hjrest, hjlow, _⟩ := hpred_mem j hjw hp
          rcases hmem_split j hjrest with h1 | h1 | h1
          · exact absurd hjlow (by omega)
          · omega
          · exact absurd (hsorted'' j h1) (by omega)
        · exact Bool.not_eq_true _ ▸ (by revert hp; cases (!(st.matches2.getD j false) &&
            (charAt a i == charAt b j)) <;> simp)
    · -- the head of the surviving leftover is beyond the window: no match
      rw [if_neg hq2] at hsingle
      refine matchInv_step_of_none a b d i st hinv (by rw [hsingle]) ?_
      refine List.find?_eq_none.mpr fun j hjw hp => ?_
      obtain ⟨hjrest, hjlow, hjhigh⟩ := hpred_mem j hjw hp
      rcases hmem_split j hjrest with h1 | h1 | h1
      · omega
      · omega
      · exact absurd (hsorted'' j h1) (by omega)

/-- Establishing an indexed invariant along `foldl` over `range n`. -/
lemma foldl_range_inv {α : Type} (f : α → Nat → α) (init : α) (P : Nat → α → Prop)
    (h0 : P 0 init) :
    ∀ n : Nat, (∀ i st, i < n → P i st → P (i + 1) (f st i)) →
    P n ((List.range n).foldl f init) := by
  intro n
  induction n with
  | zero => intro _; exact h0
  | succ n ih =>
      intro hstep
      rw [List.range_succ, List.foldl_append, List.foldl_cons, List.foldl_nil]
      exact hstep n _ (by omega) (ih fun i st hi hp => hstep i st (by omega) hp)

/-- The invariant holds for the finished matching loop. -/
lemma matchLoop_inv (a b : List Char) :
    MatchInv a b (matchDistance a b) a.length (matchLoop a b) := by
  unfold matchLoop
  exact foldl_range_inv _ _ (MatchInv a b (matchDistance a b)) (matchInv_init a b _)
    a.length (fun i st hi hp => matchInv_step a b _ i st hi hp)

lemma matchDistance_comm (a b : List Char) : matchDistance a b = matchDistance b a := by
  unfold matchDistance
  rw [Nat.max_comm]

lemma list_bool_ext (l1 l2 : List Bool) (hlen : l1.length = l2.length)
    (h : ∀ j, j < l1.length → l1.getD j false = l2.getD j false) : l1 = l2 := by
  apply List.ext_getElem hlen
  intro j h1 h2
  have hj := h j h1
  rwa [List.getD_eq_getElem _ _ h1, List.getD_eq_getElem _ _ h2] at hj

/-- Swapping the two strings swaps the two match-flag arrays. -/
lemma matchLoop_swap (a b : List Char) (hd : 0 ≤ matchDistance a b) :
    (matchLoop a b).matches2 = (matchLoop b a).matches1 := by
  obtain ⟨hL1, hL2, hM1, hM2, hR, hR2⟩ := matchLoop_inv a b
  obtain ⟨hL1', hL2', hM1', hM2', hR', hR2'⟩ := matchLoop_inv b a
  refine list_bool_ext _ _ (by rw [hL2, hL1']) ?_
  intro j hj
  have hjb : j < b.length := by rwa [hL2] at hj
  have h2 := hM2 j hjb
  have h1 := hM1' j hjb
  rw [posUpTo_length] at h2 h1
  rw [← matchDistance_comm a b] at h1
  have hiff : ((matchLoop a b).matches2.getD j false = true) ↔
      ((matchLoop b a).matches1.getD j false = true) := by
    rw [h2, h1]
    rw [gRun_swap (matchDistance a b) hd (posOf (charAt b j) a) (posOf (charAt b j) b)]
    simp [List.map_map, Function.comp]
  by_cases hx : (matchLoop a b).matches2.getD j false = true
  · rw [hx, hiff.mp hx]
  · have hy : ¬((matchLoop b a).matches1.getD j false = true) := fun h => hx (hiff.mpr h)
    rw [Bool.not_eq_true] at hx hy
    rw [hx, hy]

lemma countP_replicate_false (n : Nat) :
    (List.replicate n false).countP (fun x => x) = 0 := by
  induction n with
  | zero => rfl
  | succ n ih => simp [List.replicate_succ, List.countP_cons, ih]

/-- The match count equals the number of raised flags on either side. -/
lemma matchLoop_count (a b : List Char) :
    (matchLoop a b).match_count = (matchLoop a b).matches1.countP (fun x => x) ∧
    (matchLoop a b).match_count = (matchLoop a b).matches2.countP (fun x => x) := by
  unfold matchLoop
  have main := foldl_range_inv (matchStep a b (matchDistance a b))
    ⟨List.replicate a.length false, List.replicate b.length false, 0⟩
    (fun i st => st.matches1.length = a.length ∧ st.matches2.length = b.length ∧
      st.match_count = st.matches1.countP (fun x => x) ∧
      st.match_count = st.matches2.countP (fun x => x) ∧
      ∀ p, i ≤ p → st.matches1.getD p false = false)
    ⟨List.length_replicate _ _, List.length_replicate _ _,
      (countP_replicate_false _).symm, (countP_replicate_false _).symm,
      fun p _ => getD_replicate_false _ _⟩
    a.length ?_
  · exact ⟨main.2.2.1, main.2.2.2.1⟩
  · intro i st hi hp
    obtain ⟨l1, l2, c1, c2, hfresh⟩ := hp
    unfold matchStep
    rcases hfind : (window (matchDistance a b) i b.length).find?
        (fun j => !(st.matches2.getD j false) && (charAt a i == charAt b j))
      with _ | j
    · exact ⟨l1, l2, c1, c2, fun p hp' => hfresh p (by omega)⟩
    · have hjw := List.mem_of_find?_eq_some hfind
      rw [mem_window] at hjw
      have hjb : j < st.matches2.length := by omega
      have hjf : st.matches2.getD j false = false := by
        have hps := List.find?_some hfind
        simp only [Bool.and_eq_true, Bool.not_eq_true'] at hps
        exact hps.1
      have hif : st.matches1.getD i false = false := hfresh i le_rfl
      have hib : i < st.matches1.length := by omega
      refine ⟨by rw [List.length_set]; exact l1, by rw [List.length_set]; exact l2,
        ?_, ?_, ?_⟩
      · rw [countP_set_true st.matches1 i hib hif, ← c1]
      · rw [countP_set_true st.matches2 j hjb hjf, ← c2]
      · intro p hp'
        rw [getD_set_ne _ _ _ _ _ (by omega)]
        exact hfresh p (by omega)

/-- The match count is symmetric in the two strings. -/
lemma match_count_comm (a b : List Char) (hd : 0 ≤ matchDistance a b) :
    (matchLoop a b).match_count = (matchLoop b a).match_count := by
  rw [(matchLoop_count a b).2, (matchLoop_count b a).1, matchLoop_swap a b hd]

lemma countMismatch_nil_left : ∀ ys : List Char, countMismatch [] ys = 0 := by
  intro ys
  cases ys <;> rfl

lemma countMismatch_comm : ∀ s1 s2 : List Char, countMismatch s1 s2 = countMismatch s2 s1 := by
  intro s1
  induction s1 with
  | nil => intro s2; rw [countMismatch_nil_left]; cases s2 <;> rfl
  | cons x xs ih =>
      intro s2
      cases s2 with
      | nil => rfl
      | cons y ys =>
          rw [countMismatch, countMismatch, ih ys]
          by_cases hxy : x = y
          · rw [if_neg (by simp [hxy]), if_neg (by simp [hxy])]
          · rw [if_pos (by simp [hxy]), if_pos (by simp [Ne.symm hxy])]

lemma trueIdx_sorted (m : List Bool) : (trueIdx m).Pairwise (· < ·) :=
  (List.pairwise_lt_range m.length).filter _

lemma mem_trueIdx {m : List Bool} {q : Nat} :
    q ∈ trueIdx m ↔ q < m.length ∧ m.getD q false = true := by
  simp [trueIdx, List.mem_filter, List.mem_range]

/-- The number of raised positions is the raised-flag count. -/
lemma trueIdx_length (m : List Bool) :
    (trueIdx m).length = m.countP (fun x => x) := by
  unfold trueIdx
  induction m with
  | nil => rfl
  | cons x t ih =>
      rw [List.length_cons, List.range_succ_eq_map, List.filter_cons, List.filter_map,
        List.countP_cons]
      have hcong : (List.range t.length).filter
          ((fun j => (x :: t).getD j false) ∘ Nat.succ) =
          (List.range t.length).filter (fun j => t.getD j false) := by
        apply List.filter_congr
        intro j _
        rfl
      rw [hcong]
      cases x with
      | false =>
          rw [show ((false :: t).getD 0 false) = false from rfl]
          simp only [Bool.false_eq_true, if_false, List.length_map]
          rw [ih]
          simp
      | true =>
          rw [show ((true :: t).getD 0 false) = true from rfl]
          simp only [if_true, List.length_cons, List.length_map]
          rw [ih]

lemma nextTrue_ge (m2 : List Bool) (k : Nat) : k ≤ nextTrue m2 k :=
  Nat.le_add_right _ _

lemma getD_eq_drop (m2 : List Bool) (k t : Nat) :
    (m2.drop k).getD t false = m2.getD (k + t) false := by
  rw [List.getD_eq_getElem?_getD, List.getD_eq_getElem?_getD, List.getElem?_drop]

/-- All flags between `k` and the `while`-scan result are down. -/
lemma nextTrue_false_lt (m2 : List Bool) (k j : Nat) (h1 : k ≤ j)
    (h2 : j < nextTrue m2 k) : m2.getD j false = false := by
  unfold nextTrue at h2
  have hjk : j - k < (m2.drop k).findIdx (fun x => x) := by omega
  have hlen : j - k < (m2.drop k).length :=
    lt_of_lt_of_le hjk (List.findIdx_le_length (fun x => x))
  have hne := List.not_of_lt_findIdx hjk
  rw [show j = k + (j - k) from by omega, ← getD_eq_drop]
  rw [List.getD_eq_getElem _ _ hlen]
  simpa using hne

/-- The `while`-scan result carries a raised flag (when in bounds). -/
lemma nextTrue_true (m2 : List Bool) (k : Nat) (h : nextTrue m2 k < m2.length) :
    m2.getD (nextTrue m2 k) false = true := by
  have hfi : (m2.drop k).findIdx (fun x => x) < (m2.drop k).length := by
    rw [List.length_drop]
    unfold nextTrue at h
    omega
  have h3 : ((m2.drop k)[(m2.drop k).findIdx (fun x => x)]) = true := by
    have := @List.findIdx_getElem _ (fun x => x) (m2.drop k) hfi
    simpa using this
  show m2.getD (k + (m2.drop k).findIdx (fun x => x)) false = true
  rw [← getD_eq_drop]
  rw [List.getD_eq_getElem _ _ hfi]
  exact h3

/-- The transposition loop pairs the `r`-th raised flag of `matches1` with
the `r`-th raised flag of `matches2` and counts character mismatches. -/
lemma transScan (a b : List Char) (m2 : List Bool) :
    ∀ (I1 I2s : List Nat) (k t : Nat),
    (∀ q ∈ I2s, k ≤ q ∧ q < m2.length ∧ m2.getD q false = true) →
    (∀ q, k ≤ q → q < m2.length → m2.getD q false = true → q ∈ I2s) →
    I2s.Pairwise (· < ·) →
    I1.length ≤ I2s.length →
    (I1.foldl (fun kt p => (nextTrue m2 kt.1 + 1,
        kt.2 + if charAt a p ≠ charAt b (nextTrue m2 kt.1) then 1 else 0)) (k, t)).2 =
      t + countMismatch (I1.map (charAt a)) (I2s.map (charAt b)) := by
  intro I1
  induction I1 with
  | nil =>
      intro I2s k t _ _ _ _
      rw [List.foldl_nil, List.map_nil, countMismatch_nil_left]
      omega
  | cons p I1' ih =>
      intro I2s k t hH1 hH2 hsort hlen
      cases I2s with
      | nil => simp at hlen
      | cons qh I2s' =>
          have hqh := hH1 qh (List.mem_cons_self _ _)
          have hnt : nextTrue m2 k = qh := by
            have hle : nextTrue m2 k ≤ qh := by
              by_contra hgt
              push_neg at hgt
              have hfalse := nextTrue_false_lt m2 k qh hqh.1 hgt
              rw [hqh.2.2] at hfalse
              exact Bool.noConfusion hfalse
            rcases Nat.eq_or_lt_of_le hle with heq | hlt
            · exact heq
            · have hntlen : nextTrue m2 k < m2.length := lt_trans hlt hqh.2.1
              have hnttrue := nextTrue_true m2 k hntlen
              have hmem := hH2 (nextTrue m2 k) (nextTrue_ge m2 k) hntlen hnttrue
              rcases List.mem_cons.mp hmem with heq2 | hmem'
              · omega
              · have := (List.pairwise_cons.mp hsort).1 _ hmem'
                omega
          rw [List.foldl_cons]
          simp only []
          rw [hnt]
          rw [ih I2s' (qh + 1) (t + if charAt a p ≠ charAt b qh then 1 else 0)
            (fun q hq => ⟨by have := (List.pairwise_cons.mp hsort).1 q hq; omega,
              (hH1 q (List.mem_cons_of_mem qh hq)).2.1,
              (hH1 q (List.mem_cons_of_mem qh hq)).2.2⟩)
            (fun q hq1 hq2 hq3 => by
              rcases List.mem_cons.mp (hH2 q (by omega) hq2 hq3) with rfl | hmem'
              · omega
              · exact hmem')
            (List.pairwise_cons.mp hsort).2
            (by simpa using hlen)]
          rw [List.map_cons, List.map_cons, countMismatch]
          omega

/-- Folding with a guarded step is folding the bare step over the filter. -/
lemma foldl_filter_eq {α β : Type} (p : β → Bool) (g : α → β → α) (f : α → β → α)
    (hf : ∀ st x, f st x = if p x then g st x else st) :
    ∀ (l : List β) (init : α), l.foldl f init = (l.filter p).foldl g init := by
  intro l
  induction l with
  | nil => intro init; rfl
  | cons x t ih =>
      intro init
      rw [List.foldl_cons, hf, List.filter_cons]
      by_cases hx : p x
      · rw [if_pos hx, if_pos hx, List.foldl_cons, ih]
      · rw [if_neg hx, if_neg hx, ih]

/-- The transposition count of the source is the mismatch count of the two
flagged subsequences. -/
lemma transCount_eq (a b : List Char) (m1 m2 : List Bool)
    (h1 : m1.length = a.length)
    (hle : (trueIdx m1).length ≤ (trueIdx m2).length) :
    transCount a b m1 m2 =
      countMismatch ((trueIdx m1).map (charAt a)) ((trueIdx m2).map (charAt b)) := by
  unfold transCount
  rw [show List.range a.length = List.range m1.length from by rw [h1]]
  rw [foldl_filter_eq (fun i => m1.getD i false)
    (fun kt p => (nextTrue m2 kt.1 + 1,
      kt.2 + if charAt a p ≠ charAt b (nextTrue m2 kt.1) then 1 else 0))
    (transStep a b m1 m2)
    (fun st x => by simp only [transStep]) (List.range m1.length) (0, 0)]
  have hmain := transScan a b m2 (trueIdx m1) (trueIdx m2) 0 0
    (fun q hq => ⟨Nat.zero_le q, (mem_trueIdx.mp hq).1, (mem_trueIdx.mp hq).2⟩)
    (fun q _ h2 h3 => mem_trueIdx.mpr ⟨h2, h3⟩)
    (trueIdx_sorted m2) hle
  rw [show trueIdx m1 = (List.range m1.length).filter (fun j => m1.getD j false)
    from rfl] at hmain ⊢
  rw [hmain]
  omega

/-- `jaro_distance` is symmetric. -/
lemma jaro_distance_comm (a b : List Char) : jaro_distance a b = jaro_distance b a := by
  by_cases hd : 0 ≤ matchDistance a b
  · have hswap21 : (matchLoop a b).matches2 = (matchLoop b a).matches1 :=
      matchLoop_swap a b hd
    have hd' : 0 ≤ matchDistance b a := by rwa [← matchDistance_comm a b]
    have hswap12 : (matchLoop a b).matches1 = (matchLoop b a).matches2 :=
      (matchLoop_swap b a hd').symm
    have hcnt : (matchLoop a b).match_count = (matchLoop b a).match_count :=
      match_count_comm a b hd
    simp only [jaro_distance]
    by_cases hc : (matchLoop a b).match_count = 0
    · rw [if_pos hc, if_pos (by rw [← hcnt]; exact hc)]
    · rw [if_neg hc, if_neg (by rw [← hcnt]; exact hc)]
      have hlen1 : (matchLoop a b).matches1.length = a.length := (matchLoop_inv a b).1
      have hlen1' : (matchLoop b a).matches1.length = b.length := (matchLoop_inv b a).1
      have e1 : (trueIdx (matchLoop a b).matches1).length = (matchLoop a b).match_count := by
        rw [trueIdx_length, ← (matchLoop_count a b).1]
      have e2 : (trueIdx (matchLoop a b).matches2).length = (matchLoop a b).match_count := by
        rw [trueIdx_length, ← (matchLoop_count a b).2]
      have e1' : (trueIdx (matchLoop b a).matches1).length = (matchLoop b a).match_count := by
        rw [trueIdx_length, ← (matchLoop_count b a).1]
      have e2' : (trueIdx (matchLoop b a).matches2).length = (matchLoop b a).match_count := by
        rw [trueIdx_length, ← (matchLoop_count b a).2]
      have htc : transCount a b (matchLoop a b).matches1 (matchLoop a b).matches2 =
          transCount b a (matchLoop b a).matches1 (matchLoop b a).matches2 := by
        rw [transCount_eq a b _ _ hlen1 (by omega), transCount_eq b a _ _ hlen1' (by omega)]
        rw [← hswap21, ← hswap12]
        exact countMismatch_comm _ _
      rw [hcnt, htc]
      ring
  · push_neg at hd
    have hd2 : matchDistance b a < 0 := by rw [← matchDistance_comm a b]; omega
    rw [jaro_of_no_match a b (by rw [matchLoop_of_neg a b hd]),
      jaro_of_no_match b a (by rw [matchLoop_of_neg b a hd2])]

/-- The LCS-length DP matrix is symmetric. -/
lemma lcsDP_comm (X Y : List Char) : ∀ i j, lcsDP X Y i j = lcsDP Y X j i := by
  have H : ∀ n i j, i + j ≤ n → lcsDP X Y i j = lcsDP Y X j i := by
    intro n
    induction n with
    | zero =>
        intro i j h
        obtain ⟨rfl, rfl⟩ : i = 0 ∧ j = 0 := by omega
        rw [lcsDP, lcsDP]
    | succ n ih =>
        intro i j h
        match i, j with
        | 0, j =>
            rw [lcsDP]
            cases j <;> rw [lcsDP]
        | i + 1, 0 =>
            rw [lcsDP, lcsDP]
        | i + 1, j + 1 =>
            rw [lcsDP, lcsDP]
            by_cases hch : charAt X i = charAt Y j
            · rw [if_pos hch, if_pos hch.symm, ih i j (by omega)]
            · rw [if_neg hch, if_neg (fun hh => hch hh.symm), ih i (j + 1) (by omega),
                ih (i + 1) j (by omega), Nat.max_comm]
  exact fun i j => H (i + j) i j le_rfl

lemma lcs_comm (X Y : List Char) : lcs X Y = lcs Y X := lcsDP_comm X Y X.length Y.length

lemma levenshtein_comm (a b : List Char) :
    levenshtein_distance a b = levenshtein_distance b a := by
  rw [levenshtein_eq_levRec, levenshtein_eq_levRec, levRec_comm]

/-! ## Claim C8: symmetry of the three similarity functions -/

/-- **C8.** For every pair of strings:
`levenshtein(a,b) == levenshtein(b,a)`, `jaro(a,b) == jaro(b,a)`, and
`lcs_length(a,b) == lcs_length(b,a)`. -/
theorem claim_C8 : ∀ a b : List Char,
    levenshtein_distance a b = levenshtein_distance b a ∧
    jaro_distance a b = jaro_distance b a ∧
    lcs a b = lcs b a :=
  fun a b => ⟨levenshtein_comm a b, jaro_distance_comm a b, lcs_comm a b⟩

end StringSim
